import Mathlib

/-!
Verification of the Smart Task Analyzer scoring engine.

This development is a shallow embedding of the Python backend
(`scoring.py`, `feedback.py`, `schemas.py`) of the Smart Task Analyzer
repository, together with proofs about the embedded operations.

Modelling conventions:
- Python floats are modelled as exact rationals (`ℚ`).
- A naive `datetime` is modelled as an integer number of minutes since
  1970-01-01T00:00 (any fixed granularity works; the code only compares
  datetimes, steps them by whole days, and extracts the calendar day).
  The calendar day of an instant is its floor-division by 1440, and the
  weekday of day `d` is `(d + 3) % 7` with Monday = 0 (1970-01-01 was a
  Thursday, weekday 3), matching Python `datetime.weekday()`.
- The `due_date` string of a task is modelled by the result of parsing
  it: `some t` for a parseable ISO-8601 string denoting instant `t`,
  `none` for an unparseable string (`datetime.fromisoformat` raising).
- `datetime.now()` is passed explicitly as a parameter `now`.
- Python `while` loops and the recursive DFS are translated with an
  explicit fuel argument chosen at the call site to be an upper bound on
  the number of iterations the Python loop performs, so the fuelled
  function computes the same result as the unbounded loop.
-/

namespace SmartTask

/-- Day number of a civil date (standard days-from-civil algorithm),
counted from 1970-01-01 = day 0.  Used only to write down the hardcoded
2025 holiday list and concrete test dates. -/
def daysFromCivil (y m d : ℕ) : ℤ :=
  let y' := if m ≤ 2 then y - 1 else y
  let era := y' / 400
  let yoe := y' - era * 400
  let mp := if m > 2 then m - 3 else m + 9
  let doy := (153 * mp + 2) / 5 + d - 1
  let doe := yoe * 365 + yoe / 4 - yoe / 100 + doy
  ((era * 146097 + doe : ℕ) : ℤ) - 719468

/-- Minutes per day: the step of the business-day walk. -/
def minutesPerDay : ℤ := 1440

/-- Calendar day of a datetime instant (minutes since epoch): floor
division by the day length (for the positive divisor 1440, Euclidean
division is floor division). -/
def dtDay (t : ℤ) : ℤ := t / minutesPerDay

/-- Python `datetime.weekday()`: Monday = 0 ... Sunday = 6. -/
def dayOfWeek (d : ℤ) : ℤ := (d + 3) % 7

/-- `TaskScorer.HOLIDAYS_2025`: the ten hardcoded US federal holidays of
2025 (New Year, MLK, Presidents, Memorial, Independence, Labor,
Columbus, Veterans, Thanksgiving, Christmas days). -/
def HOLIDAYS_2025 : List ℤ :=
  [daysFromCivil 2025 1 1, daysFromCivil 2025 1 20, daysFromCivil 2025 2 17,
   daysFromCivil 2025 5 26, daysFromCivil 2025 7 4, daysFromCivil 2025 9 1,
   daysFromCivil 2025 10 13, daysFromCivil 2025 11 11, daysFromCivil 2025 11 27,
   daysFromCivil 2025 12 25]

/-- `TaskScorer.is_weekend` on a datetime: Saturday (5) or Sunday (6). -/
def is_weekend (t : ℤ) : Bool := decide (5 ≤ dayOfWeek (dtDay t))

/-- `TaskScorer.is_holiday` on a datetime: its calendar day is in the
hardcoded holiday list. -/
def is_holiday (t : ℤ) : Bool := decide (dtDay t ∈ HOLIDAYS_2025)

/-- One qualifying day of the business-day walk: neither weekend nor
holiday. -/
def businessDay (t : ℤ) : Bool := !is_weekend t && !is_holiday t

/-- The `while current_date < end_date` walk of
`TaskScorer.calculate_business_days`, with fuel.  Each iteration
advances the current instant by one day (1440 minutes) and counts it if
it is a business day; the walk stops as soon as `cur < fin` fails, so
any fuel at least the number of iterations yields the loop's result. -/
def bdLoop : ℕ → ℤ → ℤ → ℕ
  | 0, _, _ => 0
  | fuel + 1, cur, fin =>
    if cur < fin then (if businessDay cur then 1 else 0) + bdLoop fuel (cur + minutesPerDay) fin
    else 0

/-- The nonnegative branch of `calculate_business_days`: the walk from
`start` to `fin`.  The fuel `(fin - start).toNat` bounds the iteration
count (the walk advances by 1440 minutes per step and runs only while
the current instant is below `fin`). -/
def countBusinessDays (start fin : ℤ) : ℕ := bdLoop (fin - start).toNat start fin

/-- `TaskScorer.calculate_business_days`: signed business-day count; if
`start > end` it returns the negated count of the swapped walk. -/
def calculate_business_days (start fin : ℤ) : ℤ :=
  if fin < start then -(countBusinessDays fin start : ℤ) else (countBusinessDays start fin : ℤ)

/-- The bucket cascade of `TaskScorer.calculate_urgency_score` applied
to the signed day delta and the weekend boost. -/
def urgencyFromDays (d : ℤ) (boost : ℚ) : ℚ :=
  if d < 0 then min (100 + (d.natAbs : ℚ) * 10) 200
  else if d = 0 then 95 + boost
  else if d ≤ 1 then 90 + boost
  else if d ≤ 3 then 80 + boost
  else if d ≤ 7 then (70 - ((d : ℚ) - 3) * (5/2)) + boost
  else if d ≤ 14 then (55 - ((d : ℚ) - 7) * 2) + boost
  else if d ≤ 30 then (35 - ((d : ℚ) - 14) * (3/2)) + boost
  else max 10 ((35 - ((d : ℚ) - 30) * (1/2)) + boost)

/-- `TaskScorer.calculate_urgency_score`.  `useBD` is the scorer's
`use_business_days` flag, `due` the parse result of the due-date string
(`none` when `datetime.fromisoformat` raises, giving the neutral 50),
`now` the current instant. -/
def calculate_urgency_score (useBD : Bool) (due : Option ℤ) (now : ℤ) : ℚ :=
  match due with
  | none => 50
  | some dd =>
    if useBD then
      urgencyFromDays (calculate_business_days now dd) (if is_weekend dd then 10 else 0)
    else
      urgencyFromDays ((dd - now) / minutesPerDay) 0

/-- `TaskScorer.calculate_effort_score`. -/
def calculate_effort_score (estimatedHours : ℚ) (strategy : String) : ℚ :=
  if strategy = "fastest_wins" then
    if estimatedHours ≤ 1 then 90
    else if estimatedHours ≤ 3 then 70
    else if estimatedHours ≤ 8 then 50
    else 30
  else
    if estimatedHours ≤ 2 then 70
    else if estimatedHours ≤ 5 then 80
    else if estimatedHours ≤ 10 then 60
    else 40

/-- The `Task` input shape (`schemas.TaskBase`): `due_date` holds the
parse result of the ISO due-date string (see module conventions). -/
structure TaskBase where
  title : String
  due_date : Option ℤ
  estimated_hours : ℚ
  importance : ℤ
  dependencies : List ℤ
deriving DecidableEq

/-- The `for i, task in enumerate(tasks)` counting loop of
`TaskScorer.calculate_dependency_score`. -/
def blockingCount (taskIdx : ℤ) : List TaskBase → ℕ
  | [] => 0
  | t :: ts => (if taskIdx ∈ t.dependencies then 1 else 0) + blockingCount taskIdx ts

/-- `TaskScorer.calculate_dependency_score`: `min(blocking_count * 20, 100)`. -/
def calculate_dependency_score (taskIdx : ℕ) (tasks : List TaskBase) : ℚ :=
  min ((blockingCount (taskIdx : ℤ) tasks : ℚ) * 20) 100

/-- `task_map.get(task_idx)` where `task_map = {i: task for i, task in
enumerate(tasks)}`: defined exactly for `0 ≤ i < len(tasks)`. -/
def taskAt (tasks : List TaskBase) (i : ℤ) : Option TaskBase :=
  if 0 ≤ i then tasks.get? i.toNat else none

/-- The mutable state shared by the DFS of
`detect_circular_dependencies`: the Python sets `visited`, `rec_stack`
and `circular_tasks`, modelled as duplicate-free lists manipulated with
`List.insert` / `List.erase` / `List.union`. -/
structure DfsState where
  visited : List ℤ
  recStack : List ℤ
  circular : List ℤ
deriving DecidableEq

/-- `visited.add(task_idx); rec_stack.add(task_idx)` on entering a node. -/
def pushNode (idx : ℤ) (s : DfsState) : DfsState :=
  { s with visited := s.visited.insert idx, recStack := s.recStack.insert idx }

/-- `rec_stack.remove(task_idx)` on leaving a node. -/
def popNode (idx : ℤ) (s : DfsState) : DfsState :=
  { s with recStack := s.recStack.erase idx }

/-- The `for dep_id in task.dependencies` loop of the DFS: each in-range
dependency (`dep_id < len(tasks)`) is explored with the one-level-deeper
DFS `f`; if that call reports a cycle, the current node `idx` is added to
`circular_tasks`. -/
def foldDeps (n : ℤ) (f : ℤ → List ℤ → DfsState → Bool × DfsState) (idx : ℤ)
    (path : List ℤ) : List ℤ → DfsState → DfsState
  | [], s => s
  | d :: ds, s =>
    if d < n then
      foldDeps n f idx path ds
        (if (f d path s).1 then
          { (f d path s).2 with circular := ((f d path s).2).circular.insert idx }
        else (f d path s).2)
    else foldDeps n f idx path ds s

/-- The dependency exploration step of one DFS node: look the node up in
`task_map` and, when it is a real task, run the dependency loop on its
dependency list (a missing task, e.g. a phantom node reached through a
negative dependency index, has nothing to explore; an empty dependency
list, falsy in Python, also explores nothing). -/
def expandNode (tasks : List TaskBase) (f : ℤ → List ℤ → DfsState → Bool × DfsState)
    (idx : ℤ) (path : List ℤ) (s : DfsState) : DfsState :=
  match taskAt tasks idx with
  | some t => foldDeps (tasks.length : ℤ) f idx path t.dependencies s
  | none => s

/-- The inner `dfs(task_idx, path)` of
`TaskScorer.detect_circular_dependencies`, with fuel (written with
`Nat.rec` so that it is structurally recursive and kernel-reducible).
On revisiting a node already on the recursion stack, every node of the
current path is marked circular and the call reports `true`; an already
visited node reports `false`; otherwise the node is pushed, its
dependencies explored with a copy of the extended path, and the node
popped from the recursion stack. -/
def dfsF (tasks : List TaskBase) : ℕ → ℤ → List ℤ → DfsState → Bool × DfsState :=
  Nat.rec (fun _ _ s => (false, s))
    (fun _ ih idx path s =>
      if idx ∈ s.recStack then (true, { s with circular := path.union s.circular })
      else if idx ∈ s.visited then (false, s)
      else (false, popNode idx (expandNode tasks ih idx (path.insert idx) (pushNode idx s))))

/-- The top-level `for i in range(len(tasks))` loop of
`detect_circular_dependencies`: start a DFS from every unvisited index. -/
def detectLoop (tasks : List TaskBase) (fuel : ℕ) : List ℕ → DfsState → DfsState
  | [], s => s
  | i :: is, s =>
    detectLoop tasks fuel is
      (if (i : ℤ) ∈ s.visited then s else (dfsF tasks fuel (i : ℤ) [] s).2)

/-- Fuel bound for the DFS: the nesting depth of expanding calls is at
most the number of distinct nodes ever expanded (each expansion first
marks its node visited), which is bounded by the number of tasks plus
the total length of all dependency lists (covering phantom negative
indices), plus one for a final non-expanding call. -/
def detectFuel (tasks : List TaskBase) : ℕ :=
  tasks.length + (tasks.map (fun t => t.dependencies.length)).sum + 1

/-- `TaskScorer.detect_circular_dependencies`: the set of marked
indices (Python returns `list(circular_tasks)`; the order of that list
is unspecified set-iteration order, so the model returns the underlying
duplicate-free list and all claims about it are membership claims). -/
def detect_circular_dependencies (tasks : List TaskBase) : List ℤ :=
  (detectLoop tasks (detectFuel tasks) (List.range tasks.length) ⟨[], [], []⟩).circular

/-- The dependency edge relation actually followed by the DFS: from a
real task `a` (in range) to each entry `b` of its dependency list with
`b < len(tasks)`. -/
def depEdge (tasks : List TaskBase) (a b : ℤ) : Prop :=
  ∃ t, taskAt tasks a = some t ∧ b ∈ t.dependencies ∧ b < (tasks.length : ℤ)

/-- A node lying on a dependency cycle: a nonempty edge path from the
node back to itself. -/
def onCycle (tasks : List TaskBase) (c : ℤ) : Prop :=
  Relation.TransGen (depEdge tasks) c c

/-- A node on a dependency cycle or from which a dependency cycle is
reachable via the dependency relation. -/
def reachesCycle (tasks : List TaskBase) (x : ℤ) : Prop :=
  ∃ c, Relation.ReflTransGen (depEdge tasks) x c ∧ onCycle tasks c

/-- The soundness contract of one fuelled DFS call, used as the
induction statement over fuel: assuming every already-marked node
reaches a cycle, every path node has a nonempty edge path to the current
node, and the recursion stack is contained in the path, the call (i)
keeps every marked node reaching a cycle, (ii) restores the recursion
stack, and (iii) reports `true` only if every path node and the current
node reach a cycle. -/
def DfsSoundAt (tasks : List TaskBase) (fuel : ℕ) : Prop :=
  ∀ idx path s,
    (∀ x ∈ s.circular, reachesCycle tasks x) →
    (∀ x ∈ path, Relation.TransGen (depEdge tasks) x idx) →
    (∀ x ∈ s.recStack, x ∈ path) →
    (∀ x ∈ (dfsF tasks fuel idx path s).2.circular, reachesCycle tasks x) ∧
    (dfsF tasks fuel idx path s).2.recStack = s.recStack ∧
    ((dfsF tasks fuel idx path s).1 = true →
      ∀ x, x ∈ path ∨ x = idx → reachesCycle tasks x)

/-- One clause of the generated human-readable explanation
(`TaskScorer._generate_explanation`), with its numeric payload; the
weekend flag records the appended weekend indicator. -/
inductive Clause where
  | overdue (days : ℤ) (weekend : Bool)
  | dueToday (weekend : Bool)
  | dueIn (days : ℤ) (weekend : Bool)
  | dueThisWeek (weekend : Bool)
  | invalidDate
  | highImportance (n : ℤ)
  | mediumImportance (n : ℤ)
  | quickTask (hours : ℚ)
  | largeTask (hours : ℚ)
  | blocksOthers
deriving DecidableEq

/-- The explanation attached to a score: the two short-circuit messages
of `calculate_priority_score`, or the clause list built by
`_generate_explanation` (an empty list renders as "Standard priority"). -/
inductive TaskExplain where
  | circularDep
  | invalidData
  | normal (clauses : List Clause)
deriving DecidableEq

/-- The due-date clauses of `TaskScorer._generate_explanation`: parse
failure gives the invalid-date warning; otherwise the day delta is
recomputed exactly as in the urgency score and bucketed; the weekend
indicator marks a weekend due date regardless of business-day mode. -/
def urgencyClauses (useBD : Bool) (now : ℤ) (due : Option ℤ) : List Clause :=
  match due with
  | none => [.invalidDate]
  | some dd =>
    let daysUntil : ℤ :=
      if useBD then calculate_business_days now dd else (dd - now) / minutesPerDay
    let wk := is_weekend dd
    if daysUntil < 0 then [.overdue daysUntil.natAbs wk]
    else if daysUntil = 0 then [.dueToday wk]
    else if daysUntil ≤ 3 then [.dueIn daysUntil wk]
    else if daysUntil ≤ 7 then [.dueThisWeek wk]
    else []

/-- `TaskScorer._generate_explanation`: ordered independent clauses for
due date, importance tier, effort tier, and blocking. -/
def generate_explanation (useBD : Bool) (now : ℤ) (dependency : ℚ) (task : TaskBase) :
    List Clause :=
  urgencyClauses useBD now task.due_date ++
  (if 8 ≤ task.importance then [.highImportance task.importance]
   else if 5 ≤ task.importance then [.mediumImportance task.importance]
   else []) ++
  (if task.estimated_hours ≤ 2 then [.quickTask task.estimated_hours]
   else if 10 ≤ task.estimated_hours then [.largeTask task.estimated_hours]
   else []) ++
  (if 0 < dependency then [.blocksOthers] else [])

/-- The four factor weights used by the scoring engine; the field names
follow `feedback.py` (`dependencies` for the dependency factor). -/
structure FactorWeights where
  urgency : ℚ
  importance : ℚ
  effort : ℚ
  dependencies : ℚ
deriving DecidableEq

/-- The strategy weight table inlined in
`TaskScorer.calculate_priority_score` (any unrecognized strategy falls
through to the `smart_balance` branch). -/
def scoringWeights (strategy : String) : FactorWeights :=
  if strategy = "fastest_wins" then ⟨1/5, 1/5, 1/2, 1/10⟩
  else if strategy = "high_impact" then ⟨3/20, 3/5, 1/10, 3/20⟩
  else if strategy = "deadline_driven" then ⟨7/10, 3/20, 1/20, 1/10⟩
  else ⟨7/20, 3/10, 1/5, 3/20⟩

/-- Floor of a rational (numerator floor-divided by the positive
denominator). -/
def ratFloor (q : ℚ) : ℤ := q.num / (q.den : ℤ)

/-- Python `round(x, 2)` on an exact value: round to the nearest
multiple of 1/100, ties to the even multiple. -/
def pyRoundInt (q : ℚ) : ℤ :=
  let f := ratFloor q
  if q - f < 1/2 then f
  else if 1/2 < q - f then f + 1
  else if f % 2 = 0 then f else f + 1

/-- `round(score, 2)`. -/
def round2 (q : ℚ) : ℚ := (pyRoundInt (q * 100) : ℚ) / 100

/-- `TaskScorer.calculate_priority_score`: short-circuit to 0 for a
circular-dependency index or invalid data (empty title / non-positive
hours), else the weighted sum of the four factor scores under the
strategy's inline weights, rounded to 2 decimals, with the generated
explanation. -/
def calculate_priority_score (strategy : String) (useBD : Bool) (now : ℤ)
    (task : TaskBase) (taskIdx : ℕ) (allTasks : List TaskBase)
    (circularDeps : List ℤ) : ℚ × TaskExplain :=
  if (taskIdx : ℤ) ∈ circularDeps then (0, .circularDep)
  else if task.title = "" ∨ task.estimated_hours ≤ 0 then (0, .invalidData)
  else
    let urgency := calculate_urgency_score useBD task.due_date now
    let importanceScore := (task.importance : ℚ) * 10
    let effort := calculate_effort_score task.estimated_hours strategy
    let dependency := calculate_dependency_score taskIdx allTasks
    let w := scoringWeights strategy
    (round2 (urgency * w.urgency + importanceScore * w.importance +
        effort * w.effort + dependency * w.dependencies),
     .normal (generate_explanation useBD now dependency task))

/-- The `ScoredTask` output shape (`schemas.TaskResponse`): all task
fields plus id, optional priority score and optional explanation. -/
structure TaskResponse where
  id : ℕ
  title : String
  due_date : Option ℤ
  estimated_hours : ℚ
  importance : ℤ
  dependencies : List ℤ
  priority_score : Option ℚ
  explanation : Option TaskExplain
deriving DecidableEq

/-- Build the `TaskResponse` of one task inside `score_tasks`. -/
def buildResponse (idx : ℕ) (t : TaskBase) (se : ℚ × TaskExplain) : TaskResponse :=
  ⟨idx, t.title, t.due_date, t.estimated_hours, t.importance, t.dependencies,
   some se.1, some se.2⟩

/-- The `for idx, task in enumerate(tasks)` scoring loop of
`TaskScorer.score_tasks`, producing one response per task in input
order. -/
def scoreLoop (strategy : String) (useBD : Bool) (now : ℤ) (allTasks : List TaskBase)
    (circ : List ℤ) : ℕ → List TaskBase → List TaskResponse
  | _, [] => []
  | idx, t :: ts =>
    buildResponse idx t (calculate_priority_score strategy useBD now t idx allTasks circ) ::
      scoreLoop strategy useBD now allTasks circ (idx + 1) ts

/-- The sort key `x.priority_score or 0` of `score_tasks` (a null score
and a zero score both key as 0). -/
def scoreKey (t : TaskResponse) : ℚ := t.priority_score.getD 0

/-- The descending comparison used to model
`scored_tasks.sort(key=..., reverse=True)`.  Python's sort is stable and
`reverse=True` preserves the original order of equal keys, so the result
is the unique stable descending reordering; `List.insertionSort` under
this relation computes exactly that reordering. -/
def scoreGE (a b : TaskResponse) : Prop := scoreKey b ≤ scoreKey a

instance : DecidableRel scoreGE :=
  fun a b => inferInstanceAs (Decidable (scoreKey b ≤ scoreKey a))

/-- `TaskScorer.score_tasks`: detect circular dependencies once, score
every task in input order, then stable-sort descending by score. -/
def score_tasks (strategy : String) (useBD : Bool) (now : ℤ)
    (tasks : List TaskBase) : List TaskResponse :=
  List.insertionSort scoreGE
    (scoreLoop strategy useBD now tasks (detect_circular_dependencies tasks) 0 tasks)

/-- The filter `t.priority_score and t.priority_score > 0` of
`suggest_top_tasks` (a null score is falsy, a zero score is falsy, and
otherwise the comparison decides). -/
def validScore (t : TaskResponse) : Bool :=
  match t.priority_score with
  | none => false
  | some s => decide (0 < s)

/-- Python list slicing `l[:count]` for an arbitrary integer `count`:
a nonnegative count takes that many elements from the front; a negative
count stops `|count|` elements before the end (clamped at zero). -/
def pySlice {α : Type} (count : ℤ) (l : List α) : List α :=
  if 0 ≤ count then l.take count.toNat else l.take ((l.length : ℤ) + count).toNat

/-- `TaskScorer.suggest_top_tasks`: score everything, keep the tasks
with a truthy positive score, return the first `count` of them. -/
def suggest_top_tasks (strategy : String) (useBD : Bool) (now : ℤ)
    (tasks : List TaskBase) (count : ℤ) : List TaskResponse :=
  pySlice count ((score_tasks strategy useBD now tasks).filter validScore)

/-- One entry of `FeedbackStore.feedback_history` (the wall-clock
timestamp recorded by the Python code carries no information used by any
operation and is omitted from the model). -/
structure FeedbackEntry where
  task_title : String
  was_helpful : Bool
  strategy_used : String
deriving DecidableEq

/-- `FeedbackStore.strategy_preferences`: the integer counter dict with
exactly the four strategy keys. -/
structure StrategyPrefs where
  smart_balance : ℤ
  fastest_wins : ℤ
  high_impact : ℤ
  deadline_driven : ℤ
deriving DecidableEq

/-- The in-memory `FeedbackStore` (`weight_adjustments` reuses the
`FactorWeights` shape: one rational per factor). -/
structure FeedbackStore where
  feedback_history : List FeedbackEntry
  strategy_preferences : StrategyPrefs
  weight_adjustments : FactorWeights
deriving DecidableEq

/-- The freshly constructed `FeedbackStore` (all counters 0, all
adjustments 0.0, empty history). -/
def initFeedback : FeedbackStore := ⟨[], ⟨0, 0, 0, 0⟩, ⟨0, 0, 0, 0⟩⟩

/-- The four keys of `strategy_preferences`, in declaration order. -/
def knownStrategies : List String :=
  ["smart_balance", "fastest_wins", "high_impact", "deadline_driven"]

/-- `self.strategy_preferences[strategy_used] += 1 / -= 1`: defined only
for the four keys; any other strategy string raises `KeyError`
(modelled by `none`). -/
def updatePrefs (p : StrategyPrefs) (strategy : String) (helpful : Bool) :
    Option StrategyPrefs :=
  let d : ℤ := if helpful then 1 else -1
  if strategy = "smart_balance" then some { p with smart_balance := p.smart_balance + d }
  else if strategy = "fastest_wins" then some { p with fastest_wins := p.fastest_wins + d }
  else if strategy = "high_impact" then some { p with high_impact := p.high_impact + d }
  else if strategy = "deadline_driven" then some { p with deadline_driven := p.deadline_driven + d }
  else none

/-- The final clamp of `FeedbackStore._adjust_weights`:
`max(-0.2, min(0.2, v))` on every factor. -/
def clampAdjust (w : FactorWeights) : FactorWeights :=
  ⟨max (-(1/5)) (min (1/5) w.urgency), max (-(1/5)) (min (1/5) w.importance),
   max (-(1/5)) (min (1/5) w.effort), max (-(1/5)) (min (1/5) w.dependencies)⟩

/-- `FeedbackStore._adjust_weights`: the ±0.02 delta goes entirely to
the focused factor of `deadline_driven` / `high_impact` /
`fastest_wins`, and is split in four (±0.005 each) for every other
strategy; then every factor is clamped to [-0.2, 0.2]. -/
def adjust_weights (w : FactorWeights) (strategy : String) (helpful : Bool) :
    FactorWeights :=
  let a : ℚ := if helpful then 1/50 else -(1/50)
  clampAdjust
    (if strategy = "deadline_driven" then { w with urgency := w.urgency + a }
     else if strategy = "high_impact" then { w with importance := w.importance + a }
     else if strategy = "fastest_wins" then { w with effort := w.effort + a }
     else ⟨w.urgency + a/4, w.importance + a/4, w.effort + a/4, w.dependencies + a/4⟩)

/-- `FeedbackStore.add_feedback`: append the log entry, then update the
strategy counter and adjust the weights.  The first component is `true`
when the call raises (`KeyError` on an unrecognized strategy); the
second is the state of the store afterwards — on a raise, the entry has
already been appended but counters and weights are untouched. -/
def add_feedback (s : FeedbackStore) (taskTitle : String) (wasHelpful : Bool)
    (strategyUsed : String) : Bool × FeedbackStore :=
  let s1 : FeedbackStore :=
    { s with feedback_history := s.feedback_history ++ [⟨taskTitle, wasHelpful, strategyUsed⟩] }
  match updatePrefs s1.strategy_preferences strategyUsed wasHelpful with
  | none => (true, s1)
  | some p =>
    (false, { s1 with strategy_preferences := p,
                      weight_adjustments := adjust_weights s1.weight_adjustments strategyUsed wasHelpful })

/-- The `base_weights` table of `FeedbackStore.get_personalized_weights`
(this is also the weight table of spec section 4.4); `dict.get` falls
back to the `smart_balance` row for an unknown strategy. -/
def base_weights (strategy : String) : FactorWeights :=
  if strategy = "smart_balance" then ⟨7/20, 3/10, 1/5, 3/20⟩
  else if strategy = "fastest_wins" then ⟨1/4, 1/5, 2/5, 3/20⟩
  else if strategy = "high_impact" then ⟨1/5, 1/2, 3/20, 3/20⟩
  else if strategy = "deadline_driven" then ⟨1/2, 1/4, 1/10, 3/20⟩
  else ⟨7/20, 3/10, 1/5, 3/20⟩

/-- Factor-wise sum of base weights and accumulated adjustments. -/
def addAdjust (w adj : FactorWeights) : FactorWeights :=
  ⟨w.urgency + adj.urgency, w.importance + adj.importance,
   w.effort + adj.effort, w.dependencies + adj.dependencies⟩

/-- `sum(weights.values())`. -/
def sumWeights (w : FactorWeights) : ℚ :=
  w.urgency + w.importance + w.effort + w.dependencies

/-- `FeedbackStore.get_personalized_weights`: base table plus current
adjustments, renormalized to sum 1 when the total is positive (left
as-is otherwise). -/
def get_personalized_weights (s : FeedbackStore) (baseStrategy : String) : FactorWeights :=
  let w := addAdjust (base_weights baseStrategy) s.weight_adjustments
  let total := sumWeights w
  if 0 < total then
    ⟨w.urgency / total, w.importance / total, w.effort / total, w.dependencies / total⟩
  else w

/-- A feedback-store state reachable from the fresh store by any
sequence of `add_feedback` calls (including calls that raise: such a
call has still appended its log entry before raising). -/
inductive ReachableStore : FeedbackStore → Prop where
  | init : ReachableStore initFeedback
  | step (s : FeedbackStore) (title : String) (helpful : Bool) (strategy : String) :
      ReachableStore s → ReachableStore (add_feedback s title helpful strategy).2

/-- Modelled from the spec's words for comparison with the code (claim
C5): the number of *other* tasks — tasks at a different batch position —
whose dependency list contains the given index; `j` is the position of
the first listed task. -/
def specOtherBlockerCount (taskIdx : ℕ) : ℕ → List TaskBase → ℕ
  | _, [] => 0
  | j, t :: ts =>
    (if j ≠ taskIdx ∧ (taskIdx : ℤ) ∈ t.dependencies then 1 else 0) +
      specOtherBlockerCount taskIdx (j + 1) ts

/-- The ordering produced by a stable descending sort on score keys:
strictly larger key first, and ties in ascending id (= original input)
order.  `score_tasks` output is pairwise in this relation. -/
def stableRel (a b : TaskResponse) : Prop :=
  scoreKey b < scoreKey a ∨ (scoreKey a = scoreKey b ∧ a.id < b.id)

/-- All four accumulated weight adjustments lie in the clamp range
[-0.2, 0.2]. -/
def AdjustInRange (w : FactorWeights) : Prop :=
  -(1/5) ≤ w.urgency ∧ w.urgency ≤ 1/5 ∧
  -(1/5) ≤ w.importance ∧ w.importance ≤ 1/5 ∧
  -(1/5) ≤ w.effort ∧ w.effort ≤ 1/5 ∧
  -(1/5) ≤ w.dependencies ∧ w.dependencies ≤ 1/5

/-- All node values the DFS can ever expand: the root indices of the
top-level loop and every dependency-list entry (covering phantom
out-of-range values below the batch length). -/
def uNodes (tasks : List TaskBase) : List ℤ :=
  (List.range tasks.length).map Int.ofNat ++
    (tasks.map (fun t => t.dependencies)).flatten

/-- The number of expandable nodes not yet visited: the fuel measure of
the DFS (each expansion visits a new one). -/
def mUnvisited (tasks : List TaskBase) (s : DfsState) : ℕ :=
  (uNodes tasks).countP (fun x => decide (x ∉ s.visited))

/-- A node the DFS is done with: visited and no longer on the recursion
stack (such a node is never expanded again). -/
def FinishedIn (s : DfsState) (x : ℤ) : Prop := x ∈ s.visited ∧ x ∉ s.recStack

/-- Finish-order certificate: every finished node has all its
dependency-edge successors finished strictly earlier.  When the run
marks nothing circular, this yields a well-founded ordering refuting any
cycle. -/
def TimeOrdered (tasks : List TaskBase) (s : DfsState) (time : ℤ → ℕ) : Prop :=
  ∀ a, FinishedIn s a → ∀ b, depEdge tasks a b → FinishedIn s b ∧ time b < time a

/-- All finish times assigned so far are below the running counter. -/
def TimeBound (s : DfsState) (time : ℤ → ℕ) (c : ℕ) : Prop :=
  ∀ a, FinishedIn s a → time a < c

/-- The completeness contract of one fuelled DFS call with enough fuel:
if the call marks nothing circular (and nothing was marked before),
it finishes its node, restores the recursion stack, reports no cycle,
and extends the finish-order certificate. -/
def DfsCompleteAt (tasks : List TaskBase) (fuel : ℕ) : Prop :=
  ∀ idx path s time c,
    mUnvisited tasks s < fuel →
    idx ∈ uNodes tasks →
    (∀ x ∈ s.recStack, x ∈ path) →
    TimeOrdered tasks s time →
    TimeBound s time c →
    (dfsF tasks fuel idx path s).2.circular = [] →
    ∃ time' c', c ≤ c' ∧
      TimeOrdered tasks (dfsF tasks fuel idx path s).2 time' ∧
      TimeBound (dfsF tasks fuel idx path s).2 time' c' ∧
      (∀ x, FinishedIn s x → time' x = time x) ∧
      (∀ x, FinishedIn s x → FinishedIn (dfsF tasks fuel idx path s).2 x) ∧
      FinishedIn (dfsF tasks fuel idx path s).2 idx ∧
      (dfsF tasks fuel idx path s).2.recStack = s.recStack ∧
      s.visited ⊆ (dfsF tasks fuel idx path s).2.visited ∧
      (dfsF tasks fuel idx path s).1 = false

/-! ## Helper lemmas -/

/-- On the valid (non-circular, non-degenerate) path,
`calculate_priority_score` is the rounded weighted sum of the four
factor scores under the inline strategy weights, paired with the
generated explanation. -/
theorem priority_valid (strategy : String) (useBD : Bool) (now : ℤ) (task : TaskBase)
    (taskIdx : ℕ) (allTasks : List TaskBase) (circularDeps : List ℤ)
    (h1 : (taskIdx : ℤ) ∉ circularDeps) (h2 : task.title ≠ "") (h3 : 0 < task.estimated_hours) :
    calculate_priority_score strategy useBD now task taskIdx allTasks circularDeps =
      (round2 (calculate_urgency_score useBD task.due_date now * (scoringWeights strategy).urgency +
          (task.importance : ℚ) * 10 * (scoringWeights strategy).importance +
          calculate_effort_score task.estimated_hours strategy * (scoringWeights strategy).effort +
          calculate_dependency_score taskIdx allTasks * (scoringWeights strategy).dependencies),
       .normal (generate_explanation useBD now (calculate_dependency_score taskIdx allTasks) task)) := by
  rw [calculate_priority_score, if_neg h1, if_neg]
  push_neg
  exact ⟨h2, h3⟩

/-- Rounding a value that is already a whole multiple of 1/100 is the
identity. -/
theorem round2_int (q : ℚ) (n : ℤ) (h : q * 100 = (n : ℚ)) : round2 q = q := by
  rw [round2, pyRoundInt, h]
  have hf : ratFloor (n : ℚ) = n := by
    simp [ratFloor]
  simp only [hf]
  norm_num
  rw [div_eq_iff (by norm_num : (100:ℚ) ≠ 0)]
  exact h.symm

/-- Every urgency bucket stays within [10, 200] for either weekend
boost. -/
theorem urgencyFromDays_bounds (d : ℤ) (b : ℚ) (hb : b = 0 ∨ b = 10) :
    10 ≤ urgencyFromDays d b ∧ urgencyFromDays d b ≤ 200 := by
  have hb0 : (0:ℚ) ≤ b := by rcases hb with hb | hb <;> norm_num [hb]
  have hb10 : b ≤ 10 := by rcases hb with hb | hb <;> norm_num [hb]
  have hd0 : (0:ℚ) ≤ (d.natAbs : ℚ) := by positivity
  rw [urgencyFromDays]
  split_ifs with h1 h2 h3 h4 h5 h6 h7
  · exact ⟨le_min (by linarith) (by norm_num), min_le_right _ _⟩
  · constructor <;> linarith
  · constructor <;> linarith
  · constructor <;> linarith
  · have hlo : (4:ℚ) ≤ (d:ℚ) := by exact_mod_cast (show (4:ℤ) ≤ d by omega)
    have hhi : (d:ℚ) ≤ 7 := by exact_mod_cast (show d ≤ (7:ℤ) by omega)
    constructor <;> linarith
  · have hlo : (8:ℚ) ≤ (d:ℚ) := by exact_mod_cast (show (8:ℤ) ≤ d by omega)
    have hhi : (d:ℚ) ≤ 14 := by exact_mod_cast (show d ≤ (14:ℤ) by omega)
    constructor <;> linarith
  · have hlo : (15:ℚ) ≤ (d:ℚ) := by exact_mod_cast (show (15:ℤ) ≤ d by omega)
    have hhi : (d:ℚ) ≤ 30 := by exact_mod_cast (show d ≤ (30:ℤ) by omega)
    constructor <;> linarith
  · have hlo : (31:ℚ) ≤ (d:ℚ) := by exact_mod_cast (show (31:ℤ) ≤ d by omega)
    exact ⟨le_max_left _ _, max_le (by norm_num) (by linarith)⟩

/-- The signed business-day count is nonpositive whenever the due
instant precedes the current instant. -/
theorem calculate_business_days_nonpos (now dd : ℤ) (h : dd < now) :
    calculate_business_days now dd ≤ 0 := by
  rw [calculate_business_days, if_pos h]
  omega

/-- A nonpositive day delta yields at least 95 urgency. -/
theorem urgencyFromDays_past_ge (d : ℤ) (b : ℚ) (hb : b = 0 ∨ b = 10) (hd : d ≤ 0) :
    95 ≤ urgencyFromDays d b := by
  have hb0 : (0:ℚ) ≤ b := by rcases hb with hb | hb <;> norm_num [hb]
  have hd0 : (0:ℚ) ≤ (d.natAbs : ℚ) := by positivity
  rw [urgencyFromDays]
  split_ifs with h1 h2
  · exact le_min (by linarith) (by norm_num)
  · linarith
  all_goals exact absurd hd (by omega)

/-- The Python counting loop of `calculate_dependency_score` counts the
tasks whose dependency list contains the index. -/
theorem blockingCount_eq_countP (i : ℤ) (ts : List TaskBase) :
    blockingCount i ts = ts.countP (fun t => decide (i ∈ t.dependencies)) := by
  induction ts with
  | nil => simp [blockingCount]
  | cons t ts ih =>
    rw [blockingCount, ih, List.countP_cons]
    by_cases h : i ∈ t.dependencies <;> (simp [h]; try omega)

/-! ## Claim C4 -/

/-- Counterexample to claim C4 as stated: under `fastest_wins` the
effort score of a 1-hour task (90) is NOT strictly less than that of a
10-hour task (30). -/
theorem effort_fastest_wins_claim_false :
    ¬ (calculate_effort_score 1 "fastest_wins" < calculate_effort_score 10 "fastest_wins") := by
  decide

/-- Claim C4 (corrected): under the `fastest_wins` strategy the effort
score of a task estimated at 10 hours (30) is strictly less than the
effort score of a task estimated at 1 hour (90) — quick tasks score
strictly higher, the opposite direction of the spec sentence. -/
theorem effort_fastest_wins_one_hour_beats_ten :
    calculate_effort_score 10 "fastest_wins" < calculate_effort_score 1 "fastest_wins" := by
  decide

/-! ## Claim C5 -/

/-- Counterexample to claim C5 as stated: for a single task whose own
dependency list contains its own index 0, `calculate_dependency_score`
returns 20, while the spec's count over *other* tasks gives
`min(0·20, 100) = 0` — the task's own dependency list does contribute. -/
theorem dependency_score_counts_self_counterexample :
    ¬ (calculate_dependency_score 0 [⟨"a", none, 1, 5, [0]⟩] =
        min ((specOtherBlockerCount 0 0 [⟨"a", none, 1, 5, [0]⟩] : ℚ) * 20) 100) := by
  have hb : blockingCount ((0:ℕ) : ℤ) [(⟨"a", none, 1, 5, [0]⟩ : TaskBase)] = 1 := by decide
  have hs : specOtherBlockerCount 0 0 [(⟨"a", none, 1, 5, [0]⟩ : TaskBase)] = 0 := by decide
  rw [calculate_dependency_score, hb, hs]
  norm_num [min_def]

/-- Claim C5 (corrected): `calculate_dependency_score` equals
`min(count·20, 100)` where `count` counts ALL tasks in the batch —
including the task itself — whose dependency list contains the index;
the enumeration loop never excludes the task's own position. -/
theorem dependency_score_eq_min_count :
    ∀ (taskIdx : ℕ) (tasks : List TaskBase),
      calculate_dependency_score taskIdx tasks =
        min ((tasks.countP (fun t => decide ((taskIdx : ℤ) ∈ t.dependencies)) : ℚ) * 20) 100 := by
  intro taskIdx tasks
  rw [calculate_dependency_score, blockingCount_eq_countP]

/-! ## Claim C10 -/

/-- Claim C10 (confirmed): for every due-date parse outcome (parseable
or not), every current instant, and either business-day mode,
`calculate_urgency_score` lies in the closed interval [10, 200]. -/
theorem urgency_score_in_bounds (useBD : Bool) (due : Option ℤ) (now : ℤ) :
    10 ≤ calculate_urgency_score useBD due now ∧
      calculate_urgency_score useBD due now ≤ 200 := by
  rcases due with _ | dd
  · norm_num [calculate_urgency_score]
  · cases useBD with
    | false =>
      simpa [calculate_urgency_score] using
        urgencyFromDays_bounds ((dd - now) / minutesPerDay) 0 (Or.inl rfl)
    | true =>
      have hb : (if is_weekend dd = true then (10:ℚ) else 0) = 0 ∨
          (if is_weekend dd = true then (10:ℚ) else 0) = 10 := by
        by_cases h : is_weekend dd = true <;> simp [h]
      simpa [calculate_urgency_score] using
        urgencyFromDays_bounds (calculate_business_days now dd) _ hb

/-! ## Claim C6 -/

/-- Counterexample to claim C6 as stated: with business-day mode on,
the instant 2025-01-01T08:00 (minute 28928640; 2025-01-01 is the
hardcoded New Year holiday, a Wednesday) is strictly before the current
instant 2025-01-01T10:00 (minute 28928760), yet the business-day walk
counts zero days, the bucket is "due today", and the urgency is exactly
95 — not greater than 100. -/
theorem urgency_past_due_claim_false :
    (28928640 : ℤ) < 28928760 ∧
      ¬ (100 < calculate_urgency_score true (some 28928640) 28928760) := by
  have hbd : calculate_business_days 28928760 28928640 = 0 := by decide
  have hwk : is_weekend 28928640 = false := by decide
  have h95 : calculate_urgency_score true (some 28928640) 28928760 = 95 := by
    simp [calculate_urgency_score, hbd, hwk, urgencyFromDays]
  refine ⟨by norm_num, ?_⟩
  rw [h95]
  norm_num

/-- Claim C6 (corrected): with business-day mode enabled, a parseable
due date strictly earlier than the current instant always yields
urgency at least 95 — but not always strictly above 100.  The score
exceeds 100 exactly when the business-day walk over the overdue span
counts at least one qualifying day or the due date itself falls on a
weekend; when neither holds (a due time earlier on the same holiday
day), the score is exactly 95. -/
theorem urgency_past_due_ge_95 (dd now : ℤ) (h : dd < now) :
    95 ≤ calculate_urgency_score true (some dd) now ∧
      (100 < calculate_urgency_score true (some dd) now ↔
        (countBusinessDays dd now ≠ 0 ∨ is_weekend dd = true)) := by
  have hcb : calculate_business_days now dd = -(countBusinessDays dd now : ℤ) := by
    rw [calculate_business_days, if_pos h]
  have hu : calculate_urgency_score true (some dd) now =
      urgencyFromDays (-(countBusinessDays dd now : ℤ))
        (if is_weekend dd then 10 else 0) := by
    rw [calculate_urgency_score]
    simp only [if_pos, hcb]
  rw [hu]
  rcases Nat.eq_zero_or_pos (countBusinessDays dd now) with hk | hk
  · simp only [hk, Nat.cast_zero, neg_zero]
    by_cases hw : is_weekend dd = true
    · rw [urgencyFromDays, if_neg (by omega), if_pos rfl, if_pos hw]
      refine ⟨by norm_num, ?_⟩
      constructor
      · intro _; right; exact hw
      · intro _; norm_num
    · rw [urgencyFromDays, if_neg (by omega), if_pos rfl, if_neg hw]
      refine ⟨by norm_num, ?_⟩
      constructor
      · intro hlt; exact absurd hlt (by norm_num)
      · intro hor
        rcases hor with hor | hor
        · exact absurd rfl hor
        · exact absurd hor hw
  · have hneg : (-(countBusinessDays dd now : ℤ)) < 0 := by omega
    rw [urgencyFromDays, if_pos hneg]
    have habs : ((((-(countBusinessDays dd now : ℤ))).natAbs : ℚ)) =
        (countBusinessDays dd now : ℚ) := by
      rw [Int.natAbs_neg]
      norm_num
    rw [habs]
    have hk1 : (1:ℚ) ≤ (countBusinessDays dd now : ℚ) := by exact_mod_cast hk
    have h110 : (110:ℚ) ≤ min (100 + (countBusinessDays dd now : ℚ) * 10) 200 :=
      le_min (by linarith) (by norm_num)
    refine ⟨by linarith, ?_⟩
    constructor
    · intro _; left; omega
    · intro _; linarith

/-- Witness for claim C6's corrected theorem at a concrete input: the
due instant 2025-01-06T00:00 is before 2025-01-08T00:00, and the
theorem yields the lower bound and threshold characterization there. -/
theorem urgency_past_due_ge_95_witness :
    (28935360 : ℤ) < 28938240 ∧
      95 ≤ calculate_urgency_score true (some 28935360) 28938240 :=
  ⟨by norm_num, (urgency_past_due_ge_95 28935360 28938240 (by norm_num)).1⟩

/-! ## Claim C1 -/

/-- Counterexample to claim C1 as stated: under `deadline_driven`, a
valid task (unparsable due date so urgency is the neutral 50,
importance 5, 1 estimated hour, no dependencies) scores 46 — the
weighted sum under the inline table (.70/.15/.05/.10) — and not the
44.5 that the spec section 4.4 base table (.50/.25/.10/.15, the
`base_weights` table of `feedback.py`) would give. -/
theorem priority_score_base_table_counterexample :
    ¬ ((calculate_priority_score "deadline_driven" true 0 ⟨"a", none, 1, 5, []⟩ 0
          [⟨"a", none, 1, 5, []⟩] []).1 =
        round2 (calculate_urgency_score true none 0 * (base_weights "deadline_driven").urgency +
          ((5:ℤ) : ℚ) * 10 * (base_weights "deadline_driven").importance +
          calculate_effort_score 1 "deadline_driven" * (base_weights "deadline_driven").effort +
          calculate_dependency_score 0 [⟨"a", none, 1, 5, []⟩] *
            (base_weights "deadline_driven").dependencies)) := by
  have hu : calculate_urgency_score true (none) 0 = 50 := by simp [calculate_urgency_score]
  have he : calculate_effort_score 1 "deadline_driven" = 70 := by decide
  have hd : calculate_dependency_score 0 [(⟨"a", none, 1, 5, []⟩ : TaskBase)] = 0 := by
    have hc : blockingCount ((0:ℕ) : ℤ) [(⟨"a", none, 1, 5, []⟩ : TaskBase)] = 0 := by decide
    rw [calculate_dependency_score, hc]
    norm_num [min_def]
  have hw : scoringWeights "deadline_driven" = ⟨7/10, 3/20, 1/20, 1/10⟩ := by
    simp [scoringWeights]
  have hbw : base_weights "deadline_driven" = ⟨1/2, 1/4, 1/10, 3/20⟩ := by
    simp [base_weights]
  have hL : (calculate_priority_score "deadline_driven" true 0 ⟨"a", none, 1, 5, []⟩ 0
      [⟨"a", none, 1, 5, []⟩] []).1 = 46 := by
    rw [priority_valid "deadline_driven" true 0 ⟨"a", none, 1, 5, []⟩ 0 [⟨"a", none, 1, 5, []⟩] []
      (by decide) (by decide) (by norm_num)]
    simp only [hu, he, hd, hw]
    norm_num
    rw [round2_int 46 4600 (by norm_num)]
  have hR : round2 (calculate_urgency_score true none 0 * (base_weights "deadline_driven").urgency +
      ((5:ℤ) : ℚ) * 10 * (base_weights "deadline_driven").importance +
      calculate_effort_score 1 "deadline_driven" * (base_weights "deadline_driven").effort +
      calculate_dependency_score 0 [⟨"a", none, 1, 5, []⟩] *
        (base_weights "deadline_driven").dependencies) = 89/2 := by
    simp only [hu, he, hd, hbw]
    norm_num
    rw [round2_int (89/2) 4450 (by norm_num)]
  rw [hL, hR]
  norm_num

/-- Claim C1 (corrected): on the valid path the final priority score is
the weighted sum `urgency·w_u + importance·w_i + effort·w_e +
dependency·w_d` rounded to 2 decimals — but the weights are the tables
inlined in `calculate_priority_score`, not the section 4.4 base tables:
fastest_wins .20/.20/.50/.10, high_impact .15/.60/.10/.15,
deadline_driven .70/.15/.05/.10, and .35/.30/.20/.15 for smart_balance
and any other strategy string. -/
theorem priority_score_uses_inline_weights (strategy : String) (useBD : Bool) (now : ℤ)
    (task : TaskBase) (taskIdx : ℕ) (allTasks : List TaskBase) (circularDeps : List ℤ)
    (h1 : (taskIdx : ℤ) ∉ circularDeps) (h2 : task.title ≠ "") (h3 : 0 < task.estimated_hours) :
    (calculate_priority_score strategy useBD now task taskIdx allTasks circularDeps).1 =
      round2 (calculate_urgency_score useBD task.due_date now * (scoringWeights strategy).urgency +
        (task.importance : ℚ) * 10 * (scoringWeights strategy).importance +
        calculate_effort_score task.estimated_hours strategy * (scoringWeights strategy).effort +
        calculate_dependency_score taskIdx allTasks * (scoringWeights strategy).dependencies) ∧
    scoringWeights "fastest_wins" = ⟨1/5, 1/5, 1/2, 1/10⟩ ∧
    scoringWeights "high_impact" = ⟨3/20, 3/5, 1/10, 3/20⟩ ∧
    scoringWeights "deadline_driven" = ⟨7/10, 3/20, 1/20, 1/10⟩ ∧
    (∀ s, s ≠ "fastest_wins" → s ≠ "high_impact" → s ≠ "deadline_driven" →
      scoringWeights s = ⟨7/20, 3/10, 1/5, 3/20⟩) := by
  refine ⟨?_, by simp [scoringWeights], by simp [scoringWeights], by simp [scoringWeights], ?_⟩
  · rw [priority_valid strategy useBD now task taskIdx allTasks circularDeps h1 h2 h3]
  · intro s hs1 hs2 hs3
    simp [scoringWeights, hs1, hs2, hs3]

/-- Witness for claim C1's corrected theorem: at the concrete
deadline_driven input of the counterexample, all hypotheses hold and the
weighted-sum equation follows. -/
theorem priority_score_uses_inline_weights_witness :
    ((0:ℤ) ∉ ([] : List ℤ) ∧ ("a" : String) ≠ "" ∧ (0:ℚ) < 1) ∧
      (calculate_priority_score "deadline_driven" true 0 ⟨"a", none, 1, 5, []⟩ 0
          [⟨"a", none, 1, 5, []⟩] []).1 =
        round2 (calculate_urgency_score true none 0 * (scoringWeights "deadline_driven").urgency +
          ((5:ℤ) : ℚ) * 10 * (scoringWeights "deadline_driven").importance +
          calculate_effort_score 1 "deadline_driven" * (scoringWeights "deadline_driven").effort +
          calculate_dependency_score 0 [⟨"a", none, 1, 5, []⟩] *
            (scoringWeights "deadline_driven").dependencies) :=
  ⟨⟨by decide, by decide, by norm_num⟩,
    (priority_score_uses_inline_weights "deadline_driven" true 0 ⟨"a", none, 1, 5, []⟩ 0
      [⟨"a", none, 1, 5, []⟩] [] (by decide) (by decide) (by norm_num)).1⟩

/-! ## Claim C3 -/

/-- `add_feedback` unfolded: append the entry, then branch on whether
the counter update is defined. -/
theorem add_feedback_eq (s : FeedbackStore) (title : String) (helpful : Bool) (strat : String) :
    add_feedback s title helpful strat =
      match updatePrefs s.strategy_preferences strat helpful with
      | none => (true, { s with feedback_history := s.feedback_history ++ [⟨title, helpful, strat⟩] })
      | some p =>
        (false, { feedback_history := s.feedback_history ++ [⟨title, helpful, strat⟩],
                  strategy_preferences := p,
                  weight_adjustments := adjust_weights s.weight_adjustments strat helpful }) := rfl

/-- Counterexample to claim C3 as stated: `add_feedback` with the
unrecognized strategy string "bogus" raises (`KeyError` at the
`strategy_preferences[strategy_used] += 1` line, modelled by the raised
flag `true`) instead of returning a defined result. -/
theorem add_feedback_raises_on_unknown :
    (add_feedback initFeedback "t" true "bogus").1 = true := by decide

/-- Claim C3 (corrected): `add_feedback` never raises for any of the
four recognized strategy strings (`smart_balance`, `fastest_wins`,
`high_impact`, `deadline_driven`); for `smart_balance` it appends the
log entry, bumps the `smart_balance` counter by ±1 and splits the ±0.02
weight delta evenly as ±0.005 over all four factors before clamping.
For any strategy outside the four counter keys, however, it raises
`KeyError` after appending the log entry, leaving counters and weights
untouched. -/
theorem add_feedback_smart_balance_and_unknown (s : FeedbackStore) (title : String)
    (helpful : Bool) :
    (∀ strat ∈ knownStrategies, (add_feedback s title helpful strat).1 = false) ∧
    (∀ strat, strat ∉ knownStrategies →
      add_feedback s title helpful strat =
        (true, { s with feedback_history := s.feedback_history ++ [⟨title, helpful, strat⟩] })) ∧
    add_feedback s title helpful "smart_balance" =
      (false,
        { feedback_history := s.feedback_history ++ [⟨title, helpful, "smart_balance"⟩],
          strategy_preferences := { s.strategy_preferences with
            smart_balance := s.strategy_preferences.smart_balance +
              (if helpful then 1 else -1) },
          weight_adjustments := clampAdjust
            ⟨s.weight_adjustments.urgency + (if helpful then 1/200 else -(1/200)),
             s.weight_adjustments.importance + (if helpful then 1/200 else -(1/200)),
             s.weight_adjustments.effort + (if helpful then 1/200 else -(1/200)),
             s.weight_adjustments.dependencies + (if helpful then 1/200 else -(1/200))⟩ }) := by
  refine ⟨?_, ?_, ?_⟩
  · intro strat hmem
    simp only [knownStrategies, List.mem_cons, List.not_mem_nil, or_false] at hmem
    rcases hmem with h | h | h | h <;> subst h <;>
      simp [add_feedback_eq, updatePrefs]
  · intro strat hmem
    simp only [knownStrategies, List.mem_cons, List.not_mem_nil, or_false] at hmem
    push_neg at hmem
    obtain ⟨hn1, hn2, hn3, hn4⟩ := hmem
    have hup : updatePrefs s.strategy_preferences strat helpful = none := by
      rw [updatePrefs]
      simp only [if_neg hn1, if_neg hn2, if_neg hn3, if_neg hn4]
    rw [add_feedback_eq, hup]
  · have hup : updatePrefs s.strategy_preferences "smart_balance" helpful =
        some { s.strategy_preferences with
          smart_balance := s.strategy_preferences.smart_balance +
            (if helpful then 1 else -1) } := by
      rw [updatePrefs]
      simp
    have hadj : adjust_weights s.weight_adjustments "smart_balance" helpful =
        clampAdjust
          ⟨s.weight_adjustments.urgency + (if helpful then 1/200 else -(1/200)),
           s.weight_adjustments.importance + (if helpful then 1/200 else -(1/200)),
           s.weight_adjustments.effort + (if helpful then 1/200 else -(1/200)),
           s.weight_adjustments.dependencies + (if helpful then 1/200 else -(1/200))⟩ := by
      cases helpful <;> (rw [adjust_weights]; simp; norm_num)
    rw [add_feedback_eq, hup, hadj]

/-- Witness for claim C3's corrected theorem: "deadline_driven" is a
recognized strategy and the call on the fresh store does not raise,
while "bogus" is unrecognized and the call flags a raise, appending
only the log entry. -/
theorem add_feedback_smart_balance_and_unknown_witness :
    ("deadline_driven" ∈ knownStrategies ∧
      (add_feedback initFeedback "x" true "deadline_driven").1 = false) ∧
    ("bogus" ∉ knownStrategies) ∧
      add_feedback initFeedback "x" true "bogus" =
        (true, { initFeedback with
          feedback_history := initFeedback.feedback_history ++ [⟨"x", true, "bogus"⟩] }) :=
  ⟨⟨by decide,
    (add_feedback_smart_balance_and_unknown initFeedback "x" true).1 "deadline_driven" (by decide)⟩,
   by decide,
   (add_feedback_smart_balance_and_unknown initFeedback "x" true).2.1 "bogus" (by decide)⟩

/-! ## Claim C9 -/

/-- The clamp keeps every adjustment inside [-0.2, 0.2]. -/
theorem clampAdjust_in_range (w : FactorWeights) : AdjustInRange (clampAdjust w) := by
  exact ⟨le_max_left _ _, max_le (by norm_num) (min_le_left _ _),
         le_max_left _ _, max_le (by norm_num) (min_le_left _ _),
         le_max_left _ _, max_le (by norm_num) (min_le_left _ _),
         le_max_left _ _, max_le (by norm_num) (min_le_left _ _)⟩

/-- Every reachable feedback state has all four accumulated adjustments
inside the clamp range. -/
theorem reachable_adjust_in_range (s : FeedbackStore) (h : ReachableStore s) :
    AdjustInRange s.weight_adjustments := by
  induction h with
  | init =>
    refine ⟨?_, ?_, ?_, ?_, ?_, ?_, ?_, ?_⟩ <;> norm_num [initFeedback]
  | step s title helpful strategy hr ih =>
    rcases hup : updatePrefs s.strategy_preferences strategy helpful with _ | p
    · rw [add_feedback_eq, hup]
      exact ih
    · rw [add_feedback_eq, hup]
      show AdjustInRange (adjust_weights s.weight_adjustments strategy helpful)
      rw [adjust_weights]
      exact clampAdjust_in_range _

/-- Every row of the base table sums to exactly 1. -/
theorem base_weights_sum_one (strategy : String) : sumWeights (base_weights strategy) = 1 := by
  rw [base_weights]
  split_ifs <;> norm_num [sumWeights]

/-- Renormalizing a positive-total weight vector gives sum exactly 1. -/
theorem sumWeights_renormalize (w : FactorWeights) (hw : 0 < sumWeights w) :
    sumWeights (⟨w.urgency / sumWeights w, w.importance / sumWeights w,
      w.effort / sumWeights w, w.dependencies / sumWeights w⟩ : FactorWeights) = 1 := by
  have hS : sumWeights w ≠ 0 := ne_of_gt hw
  rw [sumWeights]
  field_simp
  rw [sumWeights]

/-- Claim C9 (confirmed): for every strategy string and every
feedback-store state reachable by `add_feedback` calls from the fresh
store, the pre-normalization total is strictly positive (so the
renormalization division is always performed) and the four personalized
weights sum to exactly 1. -/
theorem personalized_weights_sum_one (s : FeedbackStore) (h : ReachableStore s)
    (strategy : String) :
    0 < sumWeights (addAdjust (base_weights strategy) s.weight_adjustments) ∧
      sumWeights (get_personalized_weights s strategy) = 1 := by
  obtain ⟨h1, h2, h3, h4, h5, h6, h7, h8⟩ := reachable_adjust_in_range s h
  have hbs := base_weights_sum_one strategy
  rw [sumWeights] at hbs
  have htot : 0 < sumWeights (addAdjust (base_weights strategy) s.weight_adjustments) := by
    rw [sumWeights, addAdjust]
    dsimp only
    linarith
  refine ⟨htot, ?_⟩
  rw [get_personalized_weights]
  rw [if_pos htot]
  exact sumWeights_renormalize _ htot

/-- Witness for claim C9 at a concrete reachable state: the fresh store
(reachable by the empty call sequence) under `high_impact`. -/
theorem personalized_weights_sum_one_witness :
    0 < sumWeights (addAdjust (base_weights "high_impact") initFeedback.weight_adjustments) ∧
      sumWeights (get_personalized_weights initFeedback "high_impact") = 1 :=
  personalized_weights_sum_one initFeedback ReachableStore.init "high_impact"

/-! ## Claim C8 -/

/-- Counterexample to claim C8 as stated: the claim quantifies over
every count, but Python slicing with a negative count cannot bound the
length by the count — already on the empty batch with `count = -1` the
returned list has length 0, and 0 ≤ -1 fails. -/
theorem suggest_top_tasks_negative_count_counterexample :
    ¬ (((suggest_top_tasks "smart_balance" true 0 [] (-1)).length : ℤ) ≤ -1) := by
  decide

/-- Claim C8 (corrected): every task returned by `suggest_top_tasks`
has a present, strictly positive priority score (tasks scoring 0 or
less are never suggested, even if fewer than `count` qualify) — for
every integer count; and the length bound `length ≤ count` holds for
every nonnegative count (negative counts slice from the end in Python
and cannot satisfy it). -/
theorem suggest_top_tasks_positive_and_bounded (strategy : String) (useBD : Bool) (now : ℤ)
    (tasks : List TaskBase) (count : ℤ) :
    (∀ t ∈ suggest_top_tasks strategy useBD now tasks count,
      ∃ sc, t.priority_score = some sc ∧ 0 < sc) ∧
    (0 ≤ count →
      ((suggest_top_tasks strategy useBD now tasks count).length : ℤ) ≤ count) := by
  constructor
  · intro t ht
    have hmem : t ∈ (score_tasks strategy useBD now tasks).filter validScore := by
      rw [suggest_top_tasks, pySlice] at ht
      split_ifs at ht
      · exact List.take_subset _ _ ht
      · exact List.take_subset _ _ ht
    have hv := (List.mem_filter.mp hmem).2
    rcases hps : t.priority_score with _ | sc
    · simp [validScore, hps] at hv
    · simp only [validScore, hps, decide_eq_true_eq] at hv
      exact ⟨sc, rfl, hv⟩
  · intro h
    rw [suggest_top_tasks, pySlice, if_pos h]
    calc (((((score_tasks strategy useBD now tasks).filter validScore).take
            count.toNat).length : ℕ) : ℤ)
        ≤ (count.toNat : ℤ) := by exact_mod_cast List.length_take_le _ _
      _ = count := Int.toNat_of_nonneg h

/-- Witness for claim C8's corrected theorem at a concrete input:
a singleton batch with count 3 satisfies the nonnegative-count bound. -/
theorem suggest_top_tasks_positive_and_bounded_witness :
    (0:ℤ) ≤ 3 ∧
      ((suggest_top_tasks "smart_balance" true 0 [⟨"a", none, 1, 5, []⟩] 3).length : ℤ) ≤ 3 :=
  ⟨by norm_num,
    (suggest_top_tasks_positive_and_bounded "smart_balance" true 0
      [⟨"a", none, 1, 5, []⟩] 3).2 (by norm_num)⟩

/-! ## Claim C7 -/

/-- The scoring loop produces exactly one response per input task. -/
theorem scoreLoop_length (strategy : String) (useBD : Bool) (now : ℤ)
    (allTasks : List TaskBase) (circ : List ℤ) :
    ∀ (k : ℕ) (ts : List TaskBase),
      (scoreLoop strategy useBD now allTasks circ k ts).length = ts.length := by
  intro k ts
  induction ts generalizing k with
  | nil => rfl
  | cons t ts ih => simp [scoreLoop, ih]

/-- Every response the loop produces from position `k` onward has id at
least `k`. -/
theorem scoreLoop_id_ge (strategy : String) (useBD : Bool) (now : ℤ)
    (allTasks : List TaskBase) (circ : List ℤ) :
    ∀ (k : ℕ) (ts : List TaskBase) (x : TaskResponse),
      x ∈ scoreLoop strategy useBD now allTasks circ k ts → k ≤ x.id := by
  intro k ts
  induction ts generalizing k with
  | nil => intro x hx; simp [scoreLoop] at hx
  | cons t ts ih =>
    intro x hx
    rw [scoreLoop] at hx
    rcases List.mem_cons.mp hx with rfl | hxt
    · exact le_refl _
    · exact le_trans (Nat.le_succ k) (ih (k + 1) x hxt)

/-- The ids of the scoring loop's output are strictly increasing (the
loop assigns ids in input order). -/
theorem scoreLoop_pairwise_id (strategy : String) (useBD : Bool) (now : ℤ)
    (allTasks : List TaskBase) (circ : List ℤ) :
    ∀ (k : ℕ) (ts : List TaskBase),
      (scoreLoop strategy useBD now allTasks circ k ts).Pairwise (fun a b => a.id < b.id) := by
  intro k ts
  induction ts generalizing k with
  | nil => simp [scoreLoop]
  | cons t ts ih =>
    rw [scoreLoop]
    refine List.pairwise_cons.mpr ⟨?_, ih (k + 1)⟩
    intro y hy
    exact lt_of_lt_of_le (Nat.lt_succ_self k)
      (scoreLoop_id_ge strategy useBD now allTasks circ (k + 1) ts y hy)

/-- Inserting an element whose id is below every id of a `stableRel`-
pairwise list (i.e. an element that came earlier in the input than
everything in the list) keeps the list `stableRel`-pairwise. -/
theorem pairwise_stableRel_orderedInsert (a : TaskResponse) (l : List TaskResponse)
    (hl : l.Pairwise stableRel) (ha : ∀ x ∈ l, a.id < x.id) :
    (List.orderedInsert scoreGE a l).Pairwise stableRel := by
  induction l with
  | nil => simp [List.orderedInsert]
  | cons b t ih =>
    have hbt := List.pairwise_cons.mp hl
    rw [List.orderedInsert]
    by_cases h : scoreGE a b
    · rw [if_pos h]
      refine List.pairwise_cons.mpr ⟨?_, hl⟩
      intro y hy
      rcases List.mem_cons.mp hy with rfl | hyt
      · rcases lt_or_eq_of_le h with hlt | heq
        · exact Or.inl hlt
        · exact Or.inr ⟨heq.symm, ha y (List.mem_cons_self y t)⟩
      · rcases hbt.1 y hyt with hby | ⟨hbeq, hbid⟩
        · exact Or.inl (lt_of_lt_of_le hby h)
        · rcases lt_or_eq_of_le h with hlt | heq
          · exact Or.inl (hbeq ▸ hlt)
          · exact Or.inr ⟨heq.symm.trans hbeq,
              lt_trans (ha b (List.mem_cons_self b t)) hbid⟩
    · rw [if_neg h]
      have hab : scoreKey a < scoreKey b := not_le.mp h
      refine List.pairwise_cons.mpr
        ⟨?_, ih hbt.2 (fun x hx => ha x (List.mem_cons_of_mem b hx))⟩
      intro y hy
      rcases (List.mem_orderedInsert scoreGE).mp hy with rfl | hyt
      · exact Or.inl hab
      · exact hbt.1 y hyt

/-- Insertion sort under the descending score comparison is a stable
descending sort: from an input with strictly increasing ids it produces
a `stableRel`-pairwise list (descending scores, ties in id order). -/
theorem pairwise_stableRel_insertionSort (l : List TaskResponse)
    (h : l.Pairwise (fun a b => a.id < b.id)) :
    (List.insertionSort scoreGE l).Pairwise stableRel := by
  induction l with
  | nil => simp [List.insertionSort]
  | cons a t ih =>
    have ht := List.pairwise_cons.mp h
    rw [List.insertionSort]
    apply pairwise_stableRel_orderedInsert a _ (ih ht.2)
    intro x hx
    exact ht.1 x ((List.perm_insertionSort scoreGE t).mem_iff.mp hx)

/-- Claim C7 (confirmed): `score_tasks` returns a permutation of the
one-response-per-task scoring loop (same length as the input, each
input represented exactly once), weakly descending in the score key
(null treated as 0), with ties in original input (id) order — the
stable descending sort of the scored list. -/
theorem score_tasks_perm_sorted_stable (strategy : String) (useBD : Bool) (now : ℤ)
    (tasks : List TaskBase) :
    (score_tasks strategy useBD now tasks).Perm
      (scoreLoop strategy useBD now tasks (detect_circular_dependencies tasks) 0 tasks) ∧
    (score_tasks strategy useBD now tasks).length = tasks.length ∧
    (score_tasks strategy useBD now tasks).Pairwise scoreGE ∧
    (score_tasks strategy useBD now tasks).Pairwise stableRel := by
  have hst : (score_tasks strategy useBD now tasks).Pairwise stableRel :=
    pairwise_stableRel_insertionSort _
      (scoreLoop_pairwise_id strategy useBD now tasks (detect_circular_dependencies tasks) 0 tasks)
  refine ⟨List.perm_insertionSort _ _, ?_, ?_, hst⟩
  · rw [score_tasks, (List.perm_insertionSort scoreGE _).length_eq]
    exact scoreLoop_length strategy useBD now tasks (detect_circular_dependencies tasks) 0 tasks
  · refine hst.imp ?_
    intro a b hab
    rcases hab with hlt | ⟨heq, _⟩
    · exact le_of_lt hlt
    · exact le_of_eq heq.symm

/-! ## Claim C2 -/

/-- Fuel-out step of the DFS. -/
theorem dfsF_zero (tasks : List TaskBase) (idx : ℤ) (path : List ℤ) (s : DfsState) :
    dfsF tasks 0 idx path s = (false, s) := rfl

/-- Unfolding of one fuelled DFS step. -/
theorem dfsF_succ (tasks : List TaskBase) (fuel : ℕ) (idx : ℤ) (path : List ℤ) (s : DfsState) :
    dfsF tasks (fuel + 1) idx path s =
      if idx ∈ s.recStack then (true, { s with circular := path.union s.circular })
      else if idx ∈ s.visited then (false, s)
      else
        (false,
          popNode idx (expandNode tasks (dfsF tasks fuel) idx (path.insert idx)
            (pushNode idx s))) := rfl

/-- Soundness of the dependency loop, given soundness of the
one-level-deeper DFS: marked nodes keep reaching cycles and the
recursion stack is preserved. -/
theorem foldDeps_sound (tasks : List TaskBase) (fuel : ℕ) (hIH : DfsSoundAt tasks fuel)
    (idx : ℤ) (t : TaskBase) (ht : taskAt tasks idx = some t) (path2 : List ℤ)
    (hidx : idx ∈ path2)
    (hp : ∀ x ∈ path2, Relation.ReflTransGen (depEdge tasks) x idx) :
    ∀ (ds : List ℤ), (∀ d ∈ ds, d ∈ t.dependencies) → ∀ (s : DfsState),
      (∀ x ∈ s.circular, reachesCycle tasks x) →
      (∀ x ∈ s.recStack, x ∈ path2) →
      (∀ x ∈ (foldDeps (tasks.length : ℤ) (dfsF tasks fuel) idx path2 ds s).circular,
        reachesCycle tasks x) ∧
      (foldDeps (tasks.length : ℤ) (dfsF tasks fuel) idx path2 ds s).recStack = s.recStack := by
  intro ds
  induction ds with
  | nil => intro _ s hc _; exact ⟨hc, rfl⟩
  | cons d ds ih =>
    intro hds s hc hrs
    rw [foldDeps]
    by_cases hdn : d < (tasks.length : ℤ)
    · rw [if_pos hdn]
      have hedge : depEdge tasks idx d := ⟨t, ht, hds d (List.mem_cons_self d ds), hdn⟩
      have h2 : ∀ x ∈ path2, Relation.TransGen (depEdge tasks) x d :=
        fun x hx => Relation.TransGen.tail' (hp x hx) hedge
      obtain ⟨hc1, hrs1, hb1⟩ := hIH d path2 s hc h2 hrs
      by_cases hb : (dfsF tasks fuel d path2 s).1 = true
      · rw [if_pos hb]
        have hc2 : ∀ x ∈ ({ (dfsF tasks fuel d path2 s).2 with
            circular := ((dfsF tasks fuel d path2 s).2).circular.insert idx } :
              DfsState).circular, reachesCycle tasks x := by
          intro x hx
          rcases List.mem_insert_iff.mp hx with rfl | hx2
          · exact hb1 hb x (Or.inl hidx)
          · exact hc1 x hx2
        have hrs2 : ∀ x ∈ ({ (dfsF tasks fuel d path2 s).2 with
            circular := ((dfsF tasks fuel d path2 s).2).circular.insert idx } :
              DfsState).recStack, x ∈ path2 := by
          intro x hx
          have hx' : x ∈ s.recStack := by
            have : x ∈ ((dfsF tasks fuel d path2 s).2).recStack := hx
            rwa [hrs1] at this
          exact hrs x hx'
        obtain ⟨hca, hrsa⟩ := ih (fun d' hd' => hds d' (List.mem_cons_of_mem d hd')) _ hc2 hrs2
        refine ⟨hca, hrsa.trans ?_⟩
        show ((dfsF tasks fuel d path2 s).2).recStack = s.recStack
        exact hrs1
      · rw [if_neg hb]
        have hrs2 : ∀ x ∈ ((dfsF tasks fuel d path2 s).2).recStack, x ∈ path2 := by
          intro x hx
          rw [hrs1] at hx
          exact hrs x hx
        obtain ⟨hca, hrsa⟩ := ih (fun d' hd' => hds d' (List.mem_cons_of_mem d hd')) _ hc1 hrs2
        exact ⟨hca, hrsa.trans hrs1⟩
    · rw [if_neg hdn]
      exact ih (fun d' hd' => hds d' (List.mem_cons_of_mem d hd')) s hc hrs

/-- Soundness of the fuelled DFS at every fuel level. -/
theorem dfsF_sound (tasks : List TaskBase) : ∀ fuel : ℕ, DfsSoundAt tasks fuel := by
  intro fuel
  induction fuel with
  | zero =>
    intro idx path s hc h2 h3
    refine ⟨hc, rfl, fun h => absurd h ?_⟩
    simp [dfsF_zero]
  | succ n ihn =>
    intro idx path s hc h2 h3
    by_cases hrec : idx ∈ s.recStack
    · have hcyc : Relation.TransGen (depEdge tasks) idx idx := h2 idx (h3 idx hrec)
      have hreach : ∀ x, x ∈ path ∨ x = idx → reachesCycle tasks x := by
        intro x hx
        rcases hx with hx | rfl
        · exact ⟨idx, (h2 x hx).to_reflTransGen, hcyc⟩
        · exact ⟨x, Relation.ReflTransGen.refl, hcyc⟩
      rw [dfsF_succ, if_pos hrec]
      refine ⟨?_, rfl, fun _ => hreach⟩
      intro x hx
      rcases List.mem_union_iff.mp hx with hx | hx
      · exact hreach x (Or.inl hx)
      · exact hc x hx
    · by_cases hvis : idx ∈ s.visited
      · rw [dfsF_succ, if_neg hrec, if_pos hvis]
        exact ⟨hc, rfl, fun h => absurd h (by simp)⟩
      · rw [dfsF_succ, if_neg hrec, if_neg hvis]
        have hidx : idx ∈ path.insert idx := List.mem_insert_self idx path
        have hp : ∀ x ∈ path.insert idx, Relation.ReflTransGen (depEdge tasks) x idx := by
          intro x hx
          rcases List.mem_insert_iff.mp hx with rfl | hx
          · exact Relation.ReflTransGen.refl
          · exact (h2 x hx).to_reflTransGen
        have hrs1 : ∀ x ∈ (pushNode idx s).recStack, x ∈ path.insert idx := by
          intro x hx
          rcases List.mem_insert_iff.mp hx with rfl | hx
          · exact hidx
          · exact List.mem_insert_of_mem (h3 x hx)
        have herase : ((s.recStack.insert idx).erase idx) = s.recStack := by
          rw [List.insert_of_not_mem hrec, List.erase_cons_head]
        rcases hta : taskAt tasks idx with _ | t
        · refine ⟨?_, ?_, fun h => absurd h (by simp)⟩
          · intro x hx
            have : x ∈ s.circular := by
              simpa [popNode, expandNode, hta, pushNode] using hx
            exact hc x this
          · show (popNode idx (expandNode tasks (dfsF tasks n) idx (path.insert idx)
              (pushNode idx s))).recStack = s.recStack
            simp only [popNode, expandNode, hta, pushNode]
            exact herase
        · obtain ⟨hc2, hrs2⟩ := foldDeps_sound tasks n ihn idx t hta (path.insert idx) hidx hp
            t.dependencies (fun d hd => hd) (pushNode idx s) hc hrs1
          refine ⟨?_, ?_, fun h => absurd h (by simp)⟩
          · intro x hx
            have : x ∈ (foldDeps (tasks.length : ℤ) (dfsF tasks n) idx (path.insert idx)
                t.dependencies (pushNode idx s)).circular := by
              simpa [popNode, expandNode, hta] using hx
            exact hc2 x this
          · show (popNode idx (expandNode tasks (dfsF tasks n) idx (path.insert idx)
              (pushNode idx s))).recStack = s.recStack
            simp only [popNode, expandNode, hta]
            rw [hrs2]
            exact herase

/-- Soundness of the top-level loop over all start indices. -/
theorem detectLoop_sound (tasks : List TaskBase) (fuel : ℕ) :
    ∀ (idxs : List ℕ) (s : DfsState),
      (∀ x ∈ s.circular, reachesCycle tasks x) → s.recStack = [] →
      ∀ x ∈ (detectLoop tasks fuel idxs s).circular, reachesCycle tasks x := by
  intro idxs
  induction idxs with
  | nil =>
    intro s hc _
    simpa [detectLoop] using hc
  | cons i idxs ih =>
    intro s hc hrs
    rw [detectLoop]
    by_cases hm : (i : ℤ) ∈ s.visited
    · rw [if_pos hm]
      exact ih s hc hrs
    · rw [if_neg hm]
      obtain ⟨hc1, hrs1, _⟩ := dfsF_sound tasks fuel (i : ℤ) [] s hc
        (by intro x hx; simp at hx)
        (by intro x hx; rw [hrs] at hx; simp at hx)
      exact ih _ hc1 (hrs1.trans hrs)

/-- Soundness of the returned set: every marked index reaches a
cycle. -/
theorem detect_circular_reaches (tasks : List TaskBase) :
    ∀ x ∈ detect_circular_dependencies tasks, reachesCycle tasks x := by
  intro x hx
  exact detectLoop_sound tasks (detectFuel tasks) (List.range tasks.length) ⟨[], [], []⟩
    (by intro y hy; simp at hy) rfl x hx

/-- Counterexample to claim C2 as stated: in the batch where task 0
depends on itself (a 1-cycle) and task 1 depends on task 0, task 1
feeds into a cycle — yet the returned set is `{0}` and does not contain
1: the DFS from 1 stops at the already-visited node 0 and never marks
1. -/
theorem detect_circular_misses_feeder :
    reachesCycle [⟨"a", none, 1, 1, [0]⟩, ⟨"b", none, 1, 1, [0]⟩] 1 ∧
      (1 : ℤ) ∉ detect_circular_dependencies
        [⟨"a", none, 1, 1, [0]⟩, ⟨"b", none, 1, 1, [0]⟩] := by
  constructor
  · refine ⟨0, Relation.ReflTransGen.single ?_, Relation.TransGen.single ?_⟩
    · exact ⟨⟨"b", none, 1, 1, [0]⟩, by decide, by decide, by decide⟩
    · exact ⟨⟨"a", none, 1, 1, [0]⟩, by decide, by decide, by decide⟩
  · decide

/-- Counting a pointwise-weaker predicate gives a smaller count. -/
theorem countP_le_of_imp (l : List ℤ) (p q : ℤ → Bool)
    (h : ∀ a ∈ l, q a = true → p a = true) : l.countP q ≤ l.countP p := by
  induction l with
  | nil => simp
  | cons a l ih =>
    rw [List.countP_cons, List.countP_cons]
    have hla := ih (fun a' ha' => h a' (List.mem_cons_of_mem a ha'))
    by_cases hq : q a = true
    · rw [if_pos hq, if_pos (h a (List.mem_cons_self a l) hq)]
      omega
    · rw [if_neg hq]
      omega

/-- Counting strictly drops when one counted element stops satisfying
the (pointwise weaker) predicate. -/
theorem countP_lt_of_flip (l : List ℤ) (p q : ℤ → Bool)
    (h : ∀ a ∈ l, q a = true → p a = true) (x : ℤ) (hx : x ∈ l)
    (hpx : p x = true) (hqx : q x = false) : l.countP q < l.countP p := by
  induction l with
  | nil => simp at hx
  | cons a l ih =>
    rw [List.countP_cons, List.countP_cons]
    have hla := countP_le_of_imp l p q (fun a' ha' => h a' (List.mem_cons_of_mem a ha'))
    rcases List.mem_cons.mp hx with rfl | hxl
    · rw [if_pos hpx, if_neg (by rw [hqx]; exact Bool.false_ne_true)]
      omega
    · have := ih (fun a' ha' => h a' (List.mem_cons_of_mem a ha')) hxl
      by_cases hq : q a = true
      · rw [if_pos hq, if_pos (h a (List.mem_cons_self a l) hq)]
        omega
      · rw [if_neg hq]
        omega

/-- Growing the visited set weakly shrinks the unvisited measure. -/
theorem mUnvisited_le_of_subset (tasks : List TaskBase) (s s' : DfsState)
    (h : s.visited ⊆ s'.visited) : mUnvisited tasks s' ≤ mUnvisited tasks s := by
  apply countP_le_of_imp
  intro a _ ha
  simp only [decide_eq_true_eq] at ha ⊢
  intro hmem
  exact ha (h hmem)

/-- Pushing an unvisited expandable node strictly shrinks the unvisited
measure. -/
theorem mUnvisited_push_lt (tasks : List TaskBase) (idx : ℤ) (s : DfsState)
    (hU : idx ∈ uNodes tasks) (hnv : idx ∉ s.visited) :
    mUnvisited tasks (pushNode idx s) < mUnvisited tasks s := by
  refine countP_lt_of_flip _ _ _ ?_ idx hU ?_ ?_
  · intro a _ ha
    simp only [decide_eq_true_eq] at ha ⊢
    intro hmem
    exact ha (List.mem_insert_of_mem hmem)
  · simpa using hnv
  · simp [pushNode]

/-- The dependency loop only grows the visited and circular sets. -/
theorem foldDeps_mono (n : ℤ) (f : ℤ → List ℤ → DfsState → Bool × DfsState)
    (hf : ∀ d p s, s.visited ⊆ (f d p s).2.visited ∧ s.circular ⊆ (f d p s).2.circular)
    (idx : ℤ) (path : List ℤ) :
    ∀ (ds : List ℤ) (s : DfsState),
      s.visited ⊆ (foldDeps n f idx path ds s).visited ∧
      s.circular ⊆ (foldDeps n f idx path ds s).circular := by
  intro ds
  induction ds with
  | nil => intro s; exact ⟨fun x hx => hx, fun x hx => hx⟩
  | cons d ds ih =>
    intro s
    rw [foldDeps]
    by_cases hdn : d < n
    · rw [if_pos hdn]
      obtain ⟨hfv, hfc⟩ := hf d path s
      by_cases hb : (f d path s).1 = true
      · rw [if_pos hb]
        obtain ⟨hv2, hc2⟩ := ih { (f d path s).2 with
          circular := ((f d path s).2).circular.insert idx }
        exact ⟨fun x hx => hv2 (hfv hx),
          fun x hx => hc2 (List.mem_insert_of_mem (hfc hx))⟩
      · rw [if_neg hb]
        obtain ⟨hv2, hc2⟩ := ih (f d path s).2
        exact ⟨fun x hx => hv2 (hfv hx), fun x hx => hc2 (hfc hx)⟩
    · rw [if_neg hdn]
      exact ih s

/-- Pushing an unvisited node changes no node's finished status. -/
theorem finished_push_iff (idx : ℤ) (s : DfsState) (hvis : idx ∉ s.visited) (x : ℤ) :
    FinishedIn (pushNode idx s) x ↔ FinishedIn s x := by
  show (x ∈ s.visited.insert idx ∧ x ∉ s.recStack.insert idx) ↔
    (x ∈ s.visited ∧ x ∉ s.recStack)
  constructor
  · rintro ⟨hv, hr⟩
    have hxne : x ≠ idx := by
      intro h
      exact hr (by rw [h]; exact List.mem_insert_self idx s.recStack)
    refine ⟨?_, fun hxr => hr (List.mem_insert_of_mem hxr)⟩
    rcases List.mem_insert_iff.mp hv with h | h
    · exact absurd h hxne
    · exact h
  · rintro ⟨hv, hr⟩
    have hxne : x ≠ idx := fun h => hvis (h ▸ hv)
    exact ⟨List.mem_insert_of_mem hv,
      fun hxr => (List.mem_insert_iff.mp hxr).elim hxne hr⟩

/-- A node the task map resolves is a valid in-range index. -/
theorem taskAt_some_bounds (tasks : List TaskBase) (a : ℤ) (t : TaskBase)
    (h : taskAt tasks a = some t) : 0 ≤ a ∧ a < (tasks.length : ℤ) := by
  rw [taskAt] at h
  split_ifs at h with h0
  · refine ⟨h0, ?_⟩
    by_contra hn
    push_neg at hn
    have hlen : tasks.length ≤ a.toNat := by omega
    rw [List.get?_eq_none.mpr hlen] at h
    exact Option.noConfusion h

/-- The task the map resolves belongs to the batch. -/
theorem taskAt_mem (tasks : List TaskBase) (a : ℤ) (t : TaskBase)
    (h : taskAt tasks a = some t) : t ∈ tasks := by
  rw [taskAt] at h
  split_ifs at h
  exact List.get?_mem h

/-- Every dependency-list entry of a resolved task is an expandable
node. -/
theorem dep_mem_uNodes (tasks : List TaskBase) (idx : ℤ) (t : TaskBase) (d : ℤ)
    (ht : taskAt tasks idx = some t) (hd : d ∈ t.dependencies) : d ∈ uNodes tasks := by
  have htm := taskAt_mem tasks idx t ht
  apply List.mem_append_right
  exact List.mem_flatten.mpr ⟨t.dependencies, List.mem_map_of_mem _ htm, hd⟩

/-- Every top-level root index is an expandable node. -/
theorem root_mem_uNodes (tasks : List TaskBase) (i : ℕ) (hi : i < tasks.length) :
    (i : ℤ) ∈ uNodes tasks := by
  apply List.mem_append_left
  exact List.mem_map_of_mem Int.ofNat (List.mem_range.mpr hi)

/-- One DFS call only grows the visited and circular sets. -/
theorem dfsF_mono (tasks : List TaskBase) :
    ∀ (fuel : ℕ) (idx : ℤ) (path : List ℤ) (s : DfsState),
      s.visited ⊆ (dfsF tasks fuel idx path s).2.visited ∧
      s.circular ⊆ (dfsF tasks fuel idx path s).2.circular := by
  intro fuel
  induction fuel with
  | zero => intro idx path s; exact ⟨fun x hx => hx, fun x hx => hx⟩
  | succ n ihn =>
    intro idx path s
    rw [dfsF_succ]
    by_cases hrec : idx ∈ s.recStack
    · rw [if_pos hrec]
      exact ⟨fun x hx => hx, fun x hx => List.mem_union_iff.mpr (Or.inr hx)⟩
    · rw [if_neg hrec]
      by_cases hvis : idx ∈ s.visited
      · rw [if_pos hvis]
        exact ⟨fun x hx => hx, fun x hx => hx⟩
      · rw [if_neg hvis]
        rcases hta : taskAt tasks idx with _ | t
        · simp only [popNode, expandNode, hta, pushNode]
          exact ⟨fun x hx => List.mem_insert_of_mem hx, fun x hx => hx⟩
        · simp only [popNode, expandNode, hta]
          obtain ⟨hv2, hc2⟩ := foldDeps_mono (tasks.length : ℤ) (dfsF tasks n) ihn idx
            (path.insert idx) t.dependencies (pushNode idx s)
          exact ⟨fun x hx => hv2 (List.mem_insert_of_mem hx), fun x hx => hc2 hx⟩

/-- Completeness of the dependency loop, given completeness of the
one-level-deeper DFS: if the loop marks nothing circular, it finishes
every in-range dependency it processes, restores the recursion stack,
and extends the finish-order certificate. -/
theorem foldDeps_complete (tasks : List TaskBase) (fuel : ℕ) (hIH : DfsCompleteAt tasks fuel)
    (idx : ℤ) (path2 : List ℤ) :
    ∀ (ds : List ℤ), (∀ d ∈ ds, d ∈ uNodes tasks) →
      ∀ (s : DfsState) (time : ℤ → ℕ) (c : ℕ),
      mUnvisited tasks s < fuel →
      (∀ x ∈ s.recStack, x ∈ path2) →
      TimeOrdered tasks s time →
      TimeBound s time c →
      (foldDeps (tasks.length : ℤ) (dfsF tasks fuel) idx path2 ds s).circular = [] →
      ∃ time' c', c ≤ c' ∧
        TimeOrdered tasks (foldDeps (tasks.length : ℤ) (dfsF tasks fuel) idx path2 ds s) time' ∧
        TimeBound (foldDeps (tasks.length : ℤ) (dfsF tasks fuel) idx path2 ds s) time' c' ∧
        (∀ x, FinishedIn s x → time' x = time x) ∧
        (∀ x, FinishedIn s x →
          FinishedIn (foldDeps (tasks.length : ℤ) (dfsF tasks fuel) idx path2 ds s) x) ∧
        (∀ d ∈ ds, d < (tasks.length : ℤ) →
          FinishedIn (foldDeps (tasks.length : ℤ) (dfsF tasks fuel) idx path2 ds s) d) ∧
        (foldDeps (tasks.length : ℤ) (dfsF tasks fuel) idx path2 ds s).recStack = s.recStack ∧
        s.visited ⊆ (foldDeps (tasks.length : ℤ) (dfsF tasks fuel) idx path2 ds s).visited := by
  intro ds
  induction ds with
  | nil =>
    intro _ s time c _ _ hTO hTB _
    exact ⟨time, c, le_refl c, hTO, hTB, fun x _ => rfl, fun x hx => hx,
      fun d hd => absurd hd (List.not_mem_nil d), rfl, fun x hx => hx⟩
  | cons d ds ih =>
    intro hdsU s time c hm hrs hTO hTB hout
    rw [foldDeps] at hout ⊢
    by_cases hdn : d < (tasks.length : ℤ)
    · rw [if_pos hdn] at hout ⊢
      by_cases hb : (dfsF tasks fuel d path2 s).1 = true
      · exfalso
        rw [if_pos hb] at hout
        have hsub := (foldDeps_mono (tasks.length : ℤ) (dfsF tasks fuel)
          (fun d' p' s' => dfsF_mono tasks fuel d' p' s') idx path2 ds
          { (dfsF tasks fuel d path2 s).2 with
            circular := ((dfsF tasks fuel d path2 s).2).circular.insert idx }).2
        have hidxmem : idx ∈ (foldDeps (tasks.length : ℤ) (dfsF tasks fuel) idx path2 ds
            { (dfsF tasks fuel d path2 s).2 with
              circular := ((dfsF tasks fuel d path2 s).2).circular.insert idx }).circular :=
          hsub (List.mem_insert_self idx _)
        rw [hout] at hidxmem
        exact absurd hidxmem (List.not_mem_nil idx)
      · rw [if_neg hb] at hout ⊢
        have hchild_out : ((dfsF tasks fuel d path2 s).2).circular = [] := by
          have hsub := (foldDeps_mono (tasks.length : ℤ) (dfsF tasks fuel)
            (fun d' p' s' => dfsF_mono tasks fuel d' p' s') idx path2 ds
            (dfsF tasks fuel d path2 s).2).2
          apply List.eq_nil_iff_forall_not_mem.mpr
          intro x hx
          have hx2 := hsub hx
          rw [hout] at hx2
          exact absurd hx2 (List.not_mem_nil x)
        obtain ⟨t1, c1, hcc1, hTO1, hTB1, hpres1, hfin1, hfind, hrs1, hvis1, _⟩ :=
          hIH d path2 s time c hm (hdsU d (List.mem_cons_self d ds)) hrs hTO hTB hchild_out
        obtain ⟨t2, c2, hcc2, hTO2, hTB2, hpres2, hfin2, hds2, hrs2, hvis2⟩ :=
          ih (fun d' hd' => hdsU d' (List.mem_cons_of_mem d hd'))
            ((dfsF tasks fuel d path2 s).2) t1 c1
            (lt_of_le_of_lt (mUnvisited_le_of_subset tasks s _ hvis1) hm)
            (fun x hx => hrs x (by rwa [hrs1] at hx))
            hTO1 hTB1 hout
        refine ⟨t2, c2, le_trans hcc1 hcc2, hTO2, hTB2, ?_, ?_, ?_,
          hrs2.trans hrs1, hvis1.trans hvis2⟩
        · intro x hx
          rw [hpres2 x (hfin1 x hx), hpres1 x hx]
        · intro x hx
          exact hfin2 x (hfin1 x hx)
        · intro d' hd' hlt
          rcases List.mem_cons.mp hd' with rfl | hd'
          · exact hfin2 d' hfind
          · exact hds2 d' hd' hlt
    · rw [if_neg hdn] at hout ⊢
      obtain ⟨t2, c2, hcc2, hTO2, hTB2, hpres2, hfin2, hds2, hrs2, hvis2⟩ :=
        ih (fun d' hd' => hdsU d' (List.mem_cons_of_mem d hd')) s time c hm hrs hTO hTB hout
      refine ⟨t2, c2, hcc2, hTO2, hTB2, hpres2, hfin2, ?_, hrs2, hvis2⟩
      intro d' hd' hlt
      rcases List.mem_cons.mp hd' with rfl | hd'
      · exact absurd hlt hdn
      · exact hds2 d' hd' hlt

/-- Completeness of the fuelled DFS at every sufficient fuel level: a
call that marks nothing circular finishes its node and certifies a
finish order along all edges out of newly finished nodes. -/
theorem dfsF_complete (tasks : List TaskBase) : ∀ fuel : ℕ, DfsCompleteAt tasks fuel := by
  intro fuel
  induction fuel with
  | zero =>
    intro idx path s time c hm
    exact absurd hm (by omega)
  | succ n ihn =>
    intro idx path s time c hm hU hrs hTO hTB hout
    by_cases hrec : idx ∈ s.recStack
    · exfalso
      rw [dfsF_succ, if_pos hrec] at hout
      have hout2 : path.union s.circular = [] := hout
      have hmem : idx ∈ path.union s.circular :=
        List.mem_union_iff.mpr (Or.inl (hrs idx hrec))
      rw [hout2] at hmem
      exact absurd hmem (List.not_mem_nil idx)
    · by_cases hvis : idx ∈ s.visited
      · rw [dfsF_succ, if_neg hrec, if_pos hvis]
        refine ⟨time, c, le_refl c, hTO, hTB, fun x _ => rfl, fun x hx => hx, ?_, rfl,
          fun x hx => hx, rfl⟩
        exact ⟨hvis, hrec⟩
      · rw [dfsF_succ, if_neg hrec, if_neg hvis] at hout ⊢
        have hm1 : mUnvisited tasks (pushNode idx s) < n := by
          have hlt := mUnvisited_push_lt tasks idx s hU hvis
          omega
        have hrs1 : ∀ x ∈ (pushNode idx s).recStack, x ∈ path.insert idx := by
          intro x hx
          rcases List.mem_insert_iff.mp hx with rfl | hx
          · exact List.mem_insert_self x path
          · exact List.mem_insert_of_mem (hrs x hx)
        have hTOp : TimeOrdered tasks (pushNode idx s) time := by
          intro a ha b hab
          obtain ⟨hfb, ht⟩ := hTO a ((finished_push_iff idx s hvis a).mp ha) b hab
          exact ⟨(finished_push_iff idx s hvis b).mpr hfb, ht⟩
        have hTBp : TimeBound (pushNode idx s) time c :=
          fun a ha => hTB a ((finished_push_iff idx s hvis a).mp ha)
        have herase : ((s.recStack.insert idx).erase idx) = s.recStack := by
          rw [List.insert_of_not_mem hrec, List.erase_cons_head]
        rcases hta : taskAt tasks idx with _ | t
        · -- phantom or unresolvable node: no dependencies explored
          simp only [expandNode, hta] at hout ⊢
          have hfo : ∀ x, FinishedIn (popNode idx (pushNode idx s)) x ↔
              (x ∈ s.visited.insert idx ∧ x ∉ s.recStack) := by
            intro x
            show (x ∈ s.visited.insert idx ∧
              x ∉ (s.recStack.insert idx).erase idx) ↔ _
            rw [herase]
          refine ⟨fun x => if x = idx then c else time x, c + 1, by omega,
            ?_, ?_, ?_, ?_, ?_, ?_, ?_, by trivial⟩
          · -- TimeOrdered
            intro a ha b hab
            by_cases haidx : a = idx
            · subst haidx
              obtain ⟨t', ht', _, _⟩ := hab
              rw [hta] at ht'
              exact Option.noConfusion ht'
            · obtain ⟨hav, har⟩ := (hfo a).mp ha
              have hav' : a ∈ s.visited := by
                rcases List.mem_insert_iff.mp hav with h | h
                · exact absurd h haidx
                · exact h
              obtain ⟨⟨hbv, hbr⟩, ht⟩ := hTO a ⟨hav', har⟩ b hab
              have hbidx : b ≠ idx := fun h => hvis (h ▸ hbv)
              refine ⟨(hfo b).mpr ⟨List.mem_insert_of_mem hbv, hbr⟩, ?_⟩
              dsimp only
              rw [if_neg hbidx, if_neg haidx]
              exact ht
          · -- TimeBound
            intro a ha
            dsimp only
            by_cases haidx : a = idx
            · rw [if_pos haidx]; omega
            · rw [if_neg haidx]
              obtain ⟨hav, har⟩ := (hfo a).mp ha
              have hav' : a ∈ s.visited := by
                rcases List.mem_insert_iff.mp hav with h | h
                · exact absurd h haidx
                · exact h
              have := hTB a ⟨hav', har⟩
              omega
          · -- time preservation
            intro x hx
            dsimp only
            have hxidx : x ≠ idx := fun h => hvis (h ▸ hx.1)
            rw [if_neg hxidx]
          · -- finish preservation
            intro x hx
            exact (hfo x).mpr ⟨List.mem_insert_of_mem hx.1, hx.2⟩
          · -- the node itself finishes
            exact (hfo idx).mpr ⟨List.mem_insert_self idx s.visited, hrec⟩
          · -- recursion stack restored
            exact herase
          · -- visited grows
            exact fun x hx => List.mem_insert_of_mem hx
        · -- real task: explore the dependency list
          simp only [expandNode, hta] at hout ⊢
          have hout2 : (foldDeps (tasks.length : ℤ) (dfsF tasks n) idx (path.insert idx)
              t.dependencies (pushNode idx s)).circular = [] := hout
          obtain ⟨t1, c1, hcc1, hTO1, hTB1, hpres1, hfin1, hds1, hrs2, hvis2⟩ :=
            foldDeps_complete tasks n ihn idx (path.insert idx) t.dependencies
              (fun d hd => dep_mem_uNodes tasks idx t d hta hd)
              (pushNode idx s) time c hm1 hrs1 hTOp hTBp hout2
          have hrssub : ∀ x ∈ s.recStack,
              x ∈ (foldDeps (tasks.length : ℤ) (dfsF tasks n) idx (path.insert idx)
                t.dependencies (pushNode idx s)).recStack := by
            intro x hx
            rw [hrs2]
            exact List.mem_insert_of_mem hx
          have hidxstack : idx ∈ (foldDeps (tasks.length : ℤ) (dfsF tasks n) idx
              (path.insert idx) t.dependencies (pushNode idx s)).recStack := by
            rw [hrs2]
            exact List.mem_insert_self idx s.recStack
          have hnotfinidx : ¬ FinishedIn (foldDeps (tasks.length : ℤ) (dfsF tasks n) idx
              (path.insert idx) t.dependencies (pushNode idx s)) idx :=
            fun h => h.2 hidxstack
          have hfo : ∀ x, FinishedIn (popNode idx (foldDeps (tasks.length : ℤ) (dfsF tasks n)
              idx (path.insert idx) t.dependencies (pushNode idx s))) x ↔
              (x ∈ (foldDeps (tasks.length : ℤ) (dfsF tasks n) idx (path.insert idx)
                t.dependencies (pushNode idx s)).visited ∧ x ∉ s.recStack) := by
            intro x
            show (_ ∧ x ∉ (foldDeps (tasks.length : ℤ) (dfsF tasks n) idx (path.insert idx)
              t.dependencies (pushNode idx s)).recStack.erase idx) ↔ _
            rw [hrs2]
            show (_ ∧ x ∉ (s.recStack.insert idx).erase idx) ↔ _
            rw [herase]
            exact Iff.rfl
          have hfin_of_fold : ∀ x, FinishedIn (foldDeps (tasks.length : ℤ) (dfsF tasks n) idx
              (path.insert idx) t.dependencies (pushNode idx s)) x →
              FinishedIn (popNode idx (foldDeps (tasks.length : ℤ) (dfsF tasks n) idx
                (path.insert idx) t.dependencies (pushNode idx s))) x := by
            intro x hx
            refine (hfo x).mpr ⟨hx.1, fun hmem => hx.2 (hrssub x hmem)⟩
          have hfold_of_out : ∀ x, x ≠ idx →
              FinishedIn (popNode idx (foldDeps (tasks.length : ℤ) (dfsF tasks n) idx
                (path.insert idx) t.dependencies (pushNode idx s))) x →
              FinishedIn (foldDeps (tasks.length : ℤ) (dfsF tasks n) idx (path.insert idx)
                t.dependencies (pushNode idx s)) x := by
            intro x hne hx
            obtain ⟨hxv, hxr⟩ := (hfo x).mp hx
            refine ⟨hxv, ?_⟩
            rw [hrs2]
            intro hmem
            rcases List.mem_insert_iff.mp hmem with h | h
            · exact hne h
            · exact hxr h
          refine ⟨fun x => if x = idx then c1 else t1 x, c1 + 1, by omega,
            ?_, ?_, ?_, ?_, ?_, ?_, ?_, by trivial⟩
          · -- TimeOrdered
            intro a ha b hab
            by_cases haidx : a = idx
            · subst haidx
              obtain ⟨t', ht', hbdep, hblt⟩ := hab
              rw [hta] at ht'
              have htt : t = t' := by injection ht'
              subst htt
              have hfinb := hds1 b hbdep hblt
              have hbidx : b ≠ a := fun h => hnotfinidx (h ▸ hfinb)
              refine ⟨hfin_of_fold b hfinb, ?_⟩
              dsimp only
              rw [if_neg hbidx, if_pos rfl]
              exact hTB1 b hfinb
            · have hfa := hfold_of_out a haidx ha
              obtain ⟨hfb, ht⟩ := hTO1 a hfa b hab
              have hbidx : b ≠ idx := fun h => hnotfinidx (h ▸ hfb)
              refine ⟨hfin_of_fold b hfb, ?_⟩
              dsimp only
              rw [if_neg hbidx, if_neg haidx]
              exact ht
          · -- TimeBound
            intro a ha
            dsimp only
            by_cases haidx : a = idx
            · rw [if_pos haidx]; omega
            · rw [if_neg haidx]
              have := hTB1 a (hfold_of_out a haidx ha)
              omega
          · -- time preservation
            intro x hx
            dsimp only
            have hxidx : x ≠ idx := fun h => hvis (h ▸ hx.1)
            rw [if_neg hxidx]
            exact hpres1 x ((finished_push_iff idx s hvis x).mpr hx)
          · -- finish preservation
            intro x hx
            exact hfin_of_fold x (hfin1 x ((finished_push_iff idx s hvis x).mpr hx))
          · -- the node itself finishes
            refine (hfo idx).mpr ⟨?_, hrec⟩
            exact hvis2 (List.mem_insert_self idx s.visited)
          · -- recursion stack restored
            show (foldDeps (tasks.length : ℤ) (dfsF tasks n) idx (path.insert idx)
              t.dependencies (pushNode idx s)).recStack.erase idx = s.recStack
            rw [hrs2]
            exact herase
          · -- visited grows
            exact fun x hx => hvis2 (List.mem_insert_of_mem hx)

/-- The top-level loop only grows the visited and circular sets. -/
theorem detectLoop_mono (tasks : List TaskBase) (fuel : ℕ) :
    ∀ (idxs : List ℕ) (s : DfsState),
      s.visited ⊆ (detectLoop tasks fuel idxs s).visited ∧
      s.circular ⊆ (detectLoop tasks fuel idxs s).circular := by
  intro idxs
  induction idxs with
  | nil => intro s; rw [detectLoop]; exact ⟨fun x hx => hx, fun x hx => hx⟩
  | cons i idxs ih =>
    intro s
    rw [detectLoop]
    by_cases hm : (i : ℤ) ∈ s.visited
    · rw [if_pos hm]
      exact ih s
    · rw [if_neg hm]
      obtain ⟨hv1, hc1⟩ := dfsF_mono tasks fuel (i : ℤ) [] s
      obtain ⟨hv2, hc2⟩ := ih ((dfsF tasks fuel (i : ℤ) [] s).2)
      exact ⟨fun x hx => hv2 (hv1 hx), fun x hx => hc2 (hc1 hx)⟩

/-- Completeness of the top-level loop: when nothing is marked
circular, every start index ends up visited with an empty recursion
stack, and the finish-order certificate covers the final state. -/
theorem detectLoop_complete (tasks : List TaskBase) (fuel : ℕ) :
    ∀ (idxs : List ℕ) (s : DfsState) (time : ℤ → ℕ) (c : ℕ),
      (∀ i ∈ idxs, (i : ℤ) ∈ uNodes tasks) →
      mUnvisited tasks s < fuel →
      s.recStack = [] →
      TimeOrdered tasks s time →
      TimeBound s time c →
      (detectLoop tasks fuel idxs s).circular = [] →
      ∃ time' c',
        TimeOrdered tasks (detectLoop tasks fuel idxs s) time' ∧
        TimeBound (detectLoop tasks fuel idxs s) time' c' ∧
        (detectLoop tasks fuel idxs s).recStack = [] ∧
        (∀ i ∈ idxs, (i : ℤ) ∈ (detectLoop tasks fuel idxs s).visited) ∧
        (∀ x ∈ s.visited, x ∈ (detectLoop tasks fuel idxs s).visited) := by
  intro idxs
  induction idxs with
  | nil =>
    intro s time c _ _ hrs hTO hTB _
    rw [detectLoop]
    exact ⟨time, c, hTO, hTB, hrs, fun i hi => absurd hi (List.not_mem_nil i),
      fun x hx => hx⟩
  | cons i idxs ih =>
    intro s time c hU hmf hrs hTO hTB hout
    rw [detectLoop] at hout ⊢
    by_cases hm : (i : ℤ) ∈ s.visited
    · rw [if_pos hm] at hout ⊢
      obtain ⟨t2, c2, hTO2, hTB2, hrs2, hcov2, hsub2⟩ :=
        ih s time c (fun j hj => hU j (List.mem_cons_of_mem i hj)) hmf hrs hTO hTB hout
      refine ⟨t2, c2, hTO2, hTB2, hrs2, ?_, hsub2⟩
      intro j hj
      rcases List.mem_cons.mp hj with rfl | hj
      · exact hsub2 _ hm
      · exact hcov2 j hj
    · rw [if_neg hm] at hout ⊢
      have hchild_out : ((dfsF tasks fuel (i : ℤ) [] s).2).circular = [] := by
        have hsub := (detectLoop_mono tasks fuel idxs ((dfsF tasks fuel (i : ℤ) [] s).2)).2
        apply List.eq_nil_iff_forall_not_mem.mpr
        intro x hx
        have hx2 := hsub hx
        rw [hout] at hx2
        exact absurd hx2 (List.not_mem_nil x)
      obtain ⟨t1, c1, hcc1, hTO1, hTB1, hpres1, hfin1, hfinidx, hrs1, hvis1, _⟩ :=
        dfsF_complete tasks fuel (i : ℤ) [] s time c hmf (hU i (List.mem_cons_self i idxs))
          (fun x hx => absurd (hrs ▸ hx) (List.not_mem_nil x)) hTO hTB hchild_out
      obtain ⟨t2, c2, hTO2, hTB2, hrs2, hcov2, hsub2⟩ :=
        ih ((dfsF tasks fuel (i : ℤ) [] s).2) t1 c1
          (fun j hj => hU j (List.mem_cons_of_mem i hj))
          (lt_of_le_of_lt (mUnvisited_le_of_subset tasks s _ hvis1) hmf)
          (hrs1.trans hrs) hTO1 hTB1 hout
      refine ⟨t2, c2, hTO2, hTB2, hrs2, ?_, fun x hx => hsub2 _ (hvis1 hx)⟩
      intro j hj
      rcases List.mem_cons.mp hj with rfl | hj
      · exact hsub2 _ hfinidx.1
      · exact hcov2 j hj

/-- A finish-order certificate refutes nonempty edge paths back to the
start: along any transitive edge path from a finished node, the finish
time strictly decreases. -/
theorem finished_transGen_time (tasks : List TaskBase) (s : DfsState) (time : ℤ → ℕ)
    (hTO : TimeOrdered tasks s time) :
    ∀ a b, Relation.TransGen (depEdge tasks) a b → FinishedIn s a →
      FinishedIn s b ∧ time b < time a := by
  intro a b h
  induction h with
  | single hab => intro hfa; exact hTO _ hfa _ hab
  | tail _ hbc ih =>
    intro hfa
    obtain ⟨hfb, ht⟩ := ih hfa
    obtain ⟨hfc, ht2⟩ := hTO _ hfb _ hbc
    exact ⟨hfc, lt_trans ht2 ht⟩

/-- The initial unvisited measure is below the chosen fuel. -/
theorem mUnvisited_init_lt (tasks : List TaskBase) :
    mUnvisited tasks ⟨[], [], []⟩ < detectFuel tasks := by
  rw [mUnvisited, detectFuel]
  have hle : (uNodes tasks).countP (fun x => decide (x ∉ DfsState.visited ⟨[], [], []⟩)) ≤
      (uNodes tasks).length := List.countP_le_length _
  have hlen : (uNodes tasks).length =
      tasks.length + (tasks.map (fun t => t.dependencies.length)).sum := by
    rw [uNodes, List.length_append, List.length_map, List.length_range, List.length_flatten]
    congr 2
    rw [List.map_map]
    rfl
  omega

/-- An empty detection result certifies that no task lies on a
dependency cycle. -/
theorem detect_empty_imp_no_cycle (tasks : List TaskBase)
    (h : detect_circular_dependencies tasks = []) : ∀ x, ¬ onCycle tasks x := by
  intro x hx
  rw [detect_circular_dependencies] at h
  obtain ⟨tf, cf, hTOf, _, hrsf, hcovf, _⟩ :=
    detectLoop_complete tasks (detectFuel tasks) (List.range tasks.length) ⟨[], [], []⟩
      (fun _ => 0) 0
      (fun i hi => root_mem_uNodes tasks i (List.mem_range.mp hi))
      (mUnvisited_init_lt tasks) rfl
      (fun a ha => absurd ha.1 (List.not_mem_nil a))
      (fun a ha => absurd ha.1 (List.not_mem_nil a))
      h
  obtain ⟨b, hxb, _⟩ := Relation.TransGen.head'_iff.mp hx
  obtain ⟨t, htx, _, _⟩ := hxb
  obtain ⟨hx0, hxlt⟩ := taskAt_some_bounds tasks x t htx
  have hxmem : x ∈ (detectLoop tasks (detectFuel tasks) (List.range tasks.length)
      ⟨[], [], []⟩).visited := by
    have hxeq : x = ((x.toNat : ℕ) : ℤ) := (Int.toNat_of_nonneg hx0).symm
    rw [hxeq]
    exact hcovf x.toNat (List.mem_range.mpr (by omega))
  have hfx : FinishedIn (detectLoop tasks (detectFuel tasks) (List.range tasks.length)
      ⟨[], [], []⟩) x := by
    refine ⟨hxmem, fun hmem => ?_⟩
    rw [hrsf] at hmem
    exact absurd hmem (List.not_mem_nil x)
  obtain ⟨_, hlt⟩ := finished_transGen_time tasks _ tf hTOf x x hx hfx
  exact lt_irrefl _ hlt



/-- Claim C2 (corrected): the set returned by
`detect_circular_dependencies` contains only indices of tasks that lie
on a dependency cycle or from which a cycle is reachable via the
followed dependency edges, and it is empty exactly when no task lies on
a dependency cycle (so a nonempty batch cycle is always detected by
*some* mark).  The claim's full inclusion — that EVERY cycle-reaching
task is in the set — is false, see the counterexample. -/
theorem detect_circular_sound_and_complete (tasks : List TaskBase) :
    (∀ x ∈ detect_circular_dependencies tasks, reachesCycle tasks x) ∧
    (detect_circular_dependencies tasks = [] ↔ ∀ x, ¬ onCycle tasks x) := by
  refine ⟨detect_circular_reaches tasks, detect_empty_imp_no_cycle tasks, ?_⟩
  intro hnc
  by_contra hne
  obtain ⟨x, hx⟩ := List.exists_mem_of_ne_nil _ hne
  obtain ⟨cyc, _, hcyc⟩ := detect_circular_reaches tasks x hx
  exact hnc cyc hcyc

/-- Witness for claim C2's corrected theorem: on the single-task batch
with a self-dependency, index 0 is returned, the soundness part yields a
reachable cycle for it, and the emptiness characterization confirms the
result is nonempty. -/
theorem detect_circular_sound_and_complete_witness :
    (0 : ℤ) ∈ detect_circular_dependencies [⟨"a", none, 1, 1, [0]⟩] ∧
      reachesCycle [⟨"a", none, 1, 1, [0]⟩] 0 :=
  ⟨by decide,
    (detect_circular_sound_and_complete [⟨"a", none, 1, 1, [0]⟩]).1 0 (by decide)⟩

end SmartTask
